import Mathlib

/-!
Verification development for the VSCode-extension deployment core
(`expander_verifier.py`, `backup_cleanup.py`, `remote_server.py`).

Strings are modelled as `List Char` (`Str`); Python's filesystem effects are
modelled by explicit state passing / event traces; fallible code returns
`Option` or `Except`.  All definitions are executable.
-/

namespace Deploy

/-- Python strings, modelled as lists of characters. -/
abbrev Str := List Char

/-! ## String utilities (models of Python `str` methods) -/

/-- Model of Python `str.lower` on one ASCII character: uppercase letters
(code points 65-90) are shifted by 32, everything else is unchanged. -/
def lowerChar (c : Char) : Char :=
  if 65 ≤ c.toNat ∧ c.toNat ≤ 90 then Char.ofNat (c.toNat + 32) else c

/-- Model of Python `str.upper` on one ASCII character. -/
def upperChar (c : Char) : Char :=
  if 97 ≤ c.toNat ∧ c.toNat ≤ 122 then Char.ofNat (c.toNat - 32) else c

/-- Model of Python `str.lower`. -/
def pyLower (s : Str) : Str := s.map lowerChar

/-- Model of Python `str.upper`. -/
def pyUpper (s : Str) : Str := s.map upperChar

/-- Python whitespace characters (as stripped by `str.strip()`). -/
def isPySpace (c : Char) : Bool :=
  c.toNat = 32 ∨ c.toNat = 9 ∨ c.toNat = 10 ∨ c.toNat = 13 ∨ c.toNat = 11 ∨ c.toNat = 12

/-- Model of Python `str.strip()`. -/
def pyStrip (s : Str) : Str :=
  ((s.dropWhile isPySpace).reverse.dropWhile isPySpace).reverse

/-- Model of Python `str.split(sep)` for a one-character separator:
every occurrence of `sep` cuts, empty pieces are kept. -/
def splitC (sep : Char) : Str → List Str
  | [] => [[]]
  | c :: cs =>
    if c = sep then [] :: splitC sep cs
    else
      match splitC sep cs with
      | [] => [[c]]
      | p :: ps => (c :: p) :: ps

/-- Model of Python `sep.join(parts)` for a one-character separator. -/
def joinC (sep : Char) : List Str → Str
  | [] => []
  | [p] => p
  | p :: q :: ps => p ++ sep :: joinC sep (q :: ps)

/-! ## PathSafety: embedding of `_ensure_safe_member` (expander_verifier.py 159-172) -/

/-- The path segment `".."`. -/
def dotdot : Str := ['.', '.']

/-- Backslash-to-forward-slash normalization, `candidate.replace("\\", "/")`. -/
def normSlashes (s : Str) : Str := s.map (fun c => if c = '\\' then '/' else c)

/-- `[part for part in normalized.split("/") if part]`: the non-empty
slash-separated segments of the normalized candidate. -/
def safeParts (candidate : Str) : List Str :=
  (splitC '/' (normSlashes candidate)).filter (fun p => decide (p ≠ []))

/-- Embedding of `_ensure_safe_member`: strip the raw value, reject empty,
absolute (leading `/` or `\`), drive-separator (`:`), and `..`-containing
paths, and otherwise return the normalized forward-slash joined path.
`none` models the raised `ValueError`.  The function is pure: it takes no
filesystem state at all. -/
def ensureSafeMember (value : Str) : Option Str :=
  if pyStrip value = [] then none
  else if (pyStrip value).head? = some '/' ∨ (pyStrip value).head? = some '\\' then none
  else if ':' ∈ pyStrip value then none
  else if (safeParts (pyStrip value)).any (fun p => decide (p = dotdot)) then none
  else some (joinC '/' (safeParts (pyStrip value)))

/-- The rejection condition of claim C1, stated in the claim's own terms:
the input is empty or whitespace-only, starts (after stripping) with `/` or
`\`, contains `:`, or contains a `..` segment after normalization. -/
def unsafeMemberInput (value : Str) : Prop :=
  pyStrip value = [] ∨
  (pyStrip value).head? = some '/' ∨
  (pyStrip value).head? = some '\\' ∨
  ':' ∈ pyStrip value ∨
  dotdot ∈ safeParts (pyStrip value)

instance (value : Str) : Decidable (unsafeMemberInput value) := by
  unfold unsafeMemberInput; infer_instance

/-! ### Supporting lemmas about `splitC` / `joinC` -/

theorem splitC_ne_nil (sep : Char) (l : Str) : splitC sep l ≠ [] := by
  induction l with
  | nil => simp [splitC]
  | cons c cs ih =>
    unfold splitC
    split
    · simp
    · match h : splitC sep cs with
      | [] => simp
      | p :: ps => simp

theorem not_sep_mem_of_mem_splitC (sep : Char) (l : Str) :
    ∀ p ∈ splitC sep l, sep ∉ p := by
  induction l with
  | nil => intro p hp; simp [splitC] at hp; simp [hp]
  | cons c cs ih =>
    intro p hp
    unfold splitC at hp
    split at hp
    · rcases List.mem_cons.mp hp with h | h
      · subst h; simp
      · exact ih p h
    · rename_i hc
      rcases hps : splitC sep cs with _ | ⟨q, qs⟩
      · exact absurd hps (splitC_ne_nil sep cs)
      · rw [hps] at hp
        rcases List.mem_cons.mp hp with h | h
        · subst h
          intro hmem
          rcases List.mem_cons.mp hmem with h | h
          · exact hc h.symm
          · exact ih q (hps ▸ List.mem_cons_self q qs) h
        · exact ih p (hps ▸ List.mem_cons_of_mem q h)

theorem mem_of_mem_splitC (sep : Char) (l : Str) :
    ∀ p ∈ splitC sep l, ∀ c ∈ p, c ∈ l := by
  induction l with
  | nil => intro p hp; simp [splitC] at hp; simp [hp]
  | cons a cs ih =>
    intro p hp c hc
    unfold splitC at hp
    split at hp
    · rcases List.mem_cons.mp hp with h | h
      · subst h; simp at hc
      · exact List.mem_cons_of_mem a (ih p h c hc)
    · rcases hps : splitC sep cs with _ | ⟨q, qs⟩
      · exact absurd hps (splitC_ne_nil sep cs)
      · rw [hps] at hp
        rcases List.mem_cons.mp hp with h | h
        · subst h
          rcases List.mem_cons.mp hc with h | h
          · simp [h]
          · exact List.mem_cons_of_mem a (ih q (hps ▸ List.mem_cons_self q qs) c h)
        · exact List.mem_cons_of_mem a (ih p (hps ▸ List.mem_cons_of_mem q h) c hc)

theorem splitC_cons_of_ne (sep c : Char) (l : Str) (h : c ≠ sep) :
    ∃ p ps, splitC sep (c :: l) = (c :: p) :: ps := by
  unfold splitC
  rw [if_neg h]
  rcases hps : splitC sep l with _ | ⟨q, qs⟩
  · exact absurd hps (splitC_ne_nil sep l)
  · exact ⟨q, qs, rfl⟩

theorem backslash_not_mem_normSlashes (s : Str) : '\\' ∉ normSlashes s := by
  intro h
  rcases List.mem_map.mp h with ⟨a, _, ha⟩
  by_cases hb : a = '\\' <;> simp [hb] at ha

theorem colon_not_mem_normSlashes (s : Str) (h : ':' ∉ s) : ':' ∉ normSlashes s := by
  intro hc
  rcases List.mem_map.mp hc with ⟨a, hmem, ha⟩
  by_cases hb : a = '\\' <;> simp [hb] at ha
  exact h (ha ▸ hmem)

/-- C1: the path-safety check `_ensure_safe_member` either fails (exactly on
empty/whitespace-only input, a leading `/` or `\`, a `:` anywhere, or a `..`
segment after normalization) or returns a normalized, forward-slash-joined,
archive-relative path: a nonempty join of nonempty segments none of which is
`..` or contains `/`, `\` or `:`.  The check is a pure function of the
string: it takes no filesystem state. -/
theorem c1_path_safety (v : Str) :
    (ensureSafeMember v = none ↔ unsafeMemberInput v) ∧
    (∀ r, ensureSafeMember v = some r →
      ∃ ps, ps ≠ [] ∧ r = joinC '/' ps ∧
        ∀ p ∈ ps, p ≠ [] ∧ p ≠ dotdot ∧ '/' ∉ p ∧ '\\' ∉ p ∧ ':' ∉ p) := by
  constructor
  · unfold ensureSafeMember unsafeMemberInput
    split_ifs with h1 h2 h3 h4
    · simp [h1]
    · simp only [true_iff]; tauto
    · simp only [true_iff]; tauto
    · simp only [true_iff]
      simp only [List.any_eq_true, decide_eq_true_eq] at h4
      rcases h4 with ⟨p, hp, hpd⟩
      exact Or.inr (Or.inr (Or.inr (Or.inr (hpd ▸ hp))))
    · simp only [reduceCtorEq, false_iff]
      rintro (h | h | h | h | h)
      · exact h1 h
      · exact h2 (Or.inl h)
      · exact h2 (Or.inr h)
      · exact h3 h
      · exact h4 (List.any_eq_true.mpr ⟨dotdot, h, by simp⟩)
  · intro r hr
    unfold ensureSafeMember at hr
    split_ifs at hr with h1 h2 h3 h4
    injection hr with hr
    refine ⟨safeParts (pyStrip v), ?_, hr.symm, ?_⟩
    · rcases hcr : pyStrip v with _ | ⟨c, rest⟩
      · exact absurd hcr h1
      · push_neg at h2
        rw [hcr] at h2
        simp only [List.head?_cons] at h2
        have hcslash : c ≠ '/' := fun hh => h2.1 (by rw [hh])
        have hcback : c ≠ '\\' := fun hh => h2.2 (by rw [hh])
        have hnorm : normSlashes (c :: rest) = c :: normSlashes rest := by
          simp [normSlashes, hcback]
        rcases splitC_cons_of_ne '/' c (normSlashes rest) hcslash with ⟨p, ps, hps⟩
        intro hnil
        have hthis : (c :: p) ∈ safeParts (c :: rest) := by
          unfold safeParts
          rw [hnorm, hps]
          exact List.mem_filter.mpr ⟨List.mem_cons_self _ _, by simp⟩
        rw [hnil] at hthis
        exact absurd hthis (List.not_mem_nil _)
    · intro p hp
      have hmem := List.mem_filter.mp hp
      have hsplit := hmem.1
      refine ⟨by simpa using hmem.2, ?_, ?_, ?_, ?_⟩
      · intro hpd
        exact h4 (List.any_eq_true.mpr ⟨p, hp, by simp [hpd]⟩)
      · exact not_sep_mem_of_mem_splitC '/' _ p hsplit
      · intro hb
        exact backslash_not_mem_normSlashes _ (mem_of_mem_splitC '/' _ p hsplit '\\' hb)
      · intro hcol
        exact colon_not_mem_normSlashes _ h3 (mem_of_mem_splitC '/' _ p hsplit ':' hcol)

/-- Concrete input for the C1 witness: leading/trailing whitespace, a
backslash separator and a redundant doubled slash. -/
def c1Input : Str := ("  sub\\dir//ext.vsix ").toList

/-- The normalized output `_ensure_safe_member` produces for `c1Input`. -/
def c1Output : Str := ("sub/dir/ext.vsix").toList

theorem c1_path_safety_witness :
    ensureSafeMember c1Input = some c1Output ∧
    (∃ ps, ps ≠ [] ∧ c1Output = joinC '/' ps ∧
      ∀ p ∈ ps, p ≠ [] ∧ p ≠ dotdot ∧ '/' ∉ p ∧ '\\' ∉ p ∧ ':' ∉ p) :=
  ⟨by decide, (c1_path_safety c1Input).2 c1Output (by decide)⟩

/-! ## ManifestVerifier / SafeExtractor: embedding of `expand_and_verify`
and `ManifestEntry.verify` (expander_verifier.py).

The model starts at the point where the archive is open and the manifest
is parsed (the path-resolution and file-existence checks of lines 81-89
are filesystem glue outside the claims).  `hash` abstracts
`hashlib.sha256(...).hexdigest()` over a member's byte stream. -/

deriving instance DecidableEq for Except

/-- A manifest entry as produced by `ManifestEntry.from_manifest`. -/
structure ManifestEntry where
  member : Str
  size : Option Nat
  sha256 : Option Str
deriving DecidableEq

/-- A ZIP archive member: central-directory `file_size` plus byte stream. -/
structure Member where
  fileSize : Nat
  data : List Nat
deriving DecidableEq

/-- An open ZIP archive: named members in central-directory order. -/
abbrev Archive := List (Str × Member)

/-- `zf.getinfo(name)` / `zf.open(name)`: the first member so named. -/
def lookupMember (zf : Archive) (m : Str) : Option Member :=
  (zf.find? (fun p => decide (p.1 = m))).map (·.2)

/-- `zf.namelist()`. -/
def nameList (zf : Archive) : List Str := zf.map (·.1)

/-- A verification finding, carrying the data of the corresponding
f-string yielded by `ManifestEntry.verify`. -/
inductive Finding where
  | sizeMismatch (member : Str) (expected got : Nat)
  | missingHash (member : Str)
  | shaMismatch (member : Str) (expected actual : Str)
deriving DecidableEq

/-- Decimal rendering of a number, as Python interpolates it. -/
def natStr (n : Nat) : Str := (Nat.repr n).toList

/-- The exact message text of each finding. -/
def Finding.render : Finding → Str
  | .sizeMismatch m exp got =>
      m ++ (": Size mismatch (expected ").toList ++ natStr exp ++
        (", got ").toList ++ natStr got ++ (").").toList
  | .missingHash m => m ++ (": Manifest missing SHA-256 hash for verification.").toList
  | .shaMismatch m exp act =>
      m ++ (": SHA-256 mismatch (expected ").toList ++ exp ++
        (", got ").toList ++ act ++ (").").toList

/-- The size check of `ManifestEntry.verify` (line 43-44). -/
def sizeFindings (info : Member) (e : ManifestEntry) : List Finding :=
  match e.size with
  | some s => if info.fileSize ≠ s then [.sizeMismatch e.member s info.fileSize] else []
  | none => []

/-- The hash part of `ManifestEntry.verify` (lines 46-52): a falsy
(`None` or empty) expected hash yields the missing-hash finding and stops;
otherwise the member is stream-hashed and compared. -/
def hashFindings (hash : List Nat → Str) (info : Member) (e : ManifestEntry) : List Finding :=
  match e.sha256 with
  | none => [.missingHash e.member]
  | some h =>
    if h = [] then [.missingHash e.member]
    else if hash info.data ≠ h then [.shaMismatch e.member h (hash info.data)] else []

/-- `ManifestEntry.verify` for a member found in the archive: the size
check, then the missing-hash check (which ends the entry's verification),
then the streamed-digest comparison. -/
def entryVerifyCore (hash : List Nat → Str) (info : Member) (e : ManifestEntry) : List Finding :=
  sizeFindings info e ++ hashFindings hash info e

/-- `ManifestEntry.verify`: `zf.getinfo` raises `KeyError` for a missing
member, modelled as `Except.error`. -/
def entryVerify (hash : List Nat → Str) (zf : Archive) (e : ManifestEntry) :
    Except Str (List Finding) :=
  match lookupMember zf e.member with
  | none => .error (e.member ++ (" not found in archive").toList)
  | some info => .ok (entryVerifyCore hash info e)

/-- `list(_verify_entries(zf, entries))`: all entries' findings in order;
a lookup failure propagates. -/
def verifyEntries (hash : List Nat → Str) (zf : Archive) :
    List ManifestEntry → Except Str (List Finding)
  | [] => .ok []
  | e :: es =>
    match entryVerify hash zf e with
    | .error m => .error m
    | .ok fs =>
      match verifyEntries hash zf es with
      | .error m => .error m
      | .ok rest => .ok (fs ++ rest)

/-- Model of Python `sep.join(parts)` for a multi-character separator. -/
def joinS (sep : Str) : List Str → Str
  | [] => []
  | [p] => p
  | p :: q :: ps => p ++ sep ++ joinS sep (q :: ps)

/-- `_handle_verification_findings`' aggregated message: a header plus one
`" - "`-prefixed line per finding. -/
def findingsMessage (findings : List Finding) : Str :=
  ("Integrity verification found issues:\n").toList ++
  joinC '\n' (findings.map (fun f => (" - ").toList ++ f.render))

/-- Lexicographic (code-point) order on strings, Python `sorted`'s key. -/
def lexLe : Str → Str → Bool
  | [], _ => true
  | _ :: _, [] => false
  | a :: as, b :: bs =>
    if a.toNat < b.toNat then true
    else if b.toNat < a.toNat then false
    else lexLe as bs

def insertSorted (x : Str) : List Str → List Str
  | [] => [x]
  | y :: ys => if lexLe x y then x :: y :: ys else y :: insertSorted x ys

/-- Python `sorted` on strings (insertion sort; stable, total order). -/
def sortStrs : List Str → List Str
  | [] => []
  | x :: xs => insertSorted x (sortStrs xs)

/-- `_ensure_members_present`'s missing list: manifest members absent from
the archive listing, sorted. -/
def missingMembers (zf : Archive) (entries : List ManifestEntry) : List Str :=
  sortStrs ((entries.filter (fun e => decide (e.member ∉ nameList zf))).map (·.member))

/-- `mode = (verify_integrity or "NONE").upper()`. -/
def modeOf (verifyIntegrity : Str) : Str :=
  pyUpper (if verifyIntegrity = [] then ("NONE").toList else verifyIntegrity)

/-- The observable outcome of a successful `expand_and_verify` call.
`warnings` records `logger.warning` messages, `extracted` the members
passed to `zf.extractall`, `madeTargetDir` whether `target_path.mkdir`
ran, and `retval` the function's Python return value (the source returns
`None` on every path, so `retval` is always `none`). -/
structure ExpandResult where
  warnings : List Str
  extracted : List Str
  madeTargetDir : Bool
  retval : Option Nat
deriving DecidableEq

/-- Embedding of `expand_and_verify` (lines 80-113): empty-manifest early
return, member-existence pre-check, mode-dependent verification and
finding handling, dry-run cut, then `mkdir` + selective `extractall`. -/
def expandAndVerify (hash : List Nat → Str) (zf : Archive) (entries : List ManifestEntry)
    (verifyIntegrity : Str) (dryRun : Bool) : Except Str ExpandResult :=
  if entries = [] then .ok ⟨[], [], false, none⟩
  else if missingMembers zf entries ≠ [] then
    .error (("Archive is missing expected file(s): ").toList ++
      joinS ((", ").toList) (missingMembers zf entries))
  else if modeOf verifyIntegrity ≠ ("NONE").toList then
    match verifyEntries hash zf entries with
    | .error m => .error m
    | .ok findings =>
      if findings ≠ [] then
        if modeOf verifyIntegrity = ("ERROR").toList then .error (findingsMessage findings)
        else
          if dryRun then .ok ⟨[findingsMessage findings], [], false, none⟩
          else .ok ⟨[findingsMessage findings], entries.map (·.member), true, none⟩
      else
        if dryRun then .ok ⟨[], [], false, none⟩
        else .ok ⟨[], entries.map (·.member), true, none⟩
  else
    if dryRun then .ok ⟨[], [], false, none⟩
    else .ok ⟨[], entries.map (·.member), true, none⟩

/-- `Except.isOk`, for dry-run/real-run outcome parity statements. -/
def exceptOk {ε α : Type _} : Except ε α → Bool
  | .ok _ => true
  | .error _ => false

theorem filter_member_map (p : Str → Bool) (l : List ManifestEntry) :
    (l.filter (fun e => p e.member)).map (fun e => e.member) =
      (l.map (fun e => e.member)).filter p := by
  induction l with
  | nil => rfl
  | cons e es ih => by_cases hp : p e.member <;> simp [hp, ih]

theorem missingMembers_congr (zf : Archive) {e1 e2 : List ManifestEntry}
    (h : e1.map (fun e => e.member) = e2.map (fun e => e.member)) :
    missingMembers zf e1 = missingMembers zf e2 := by
  unfold missingMembers
  rw [filter_member_map (fun m => decide (m ∉ nameList zf)),
    filter_member_map (fun m => decide (m ∉ nameList zf)), h]

/-- C2: the `VerificationMode` policy of `expand_and_verify`.  In mode
`NONE` no size/hash findings are computed at all: the outcome is the same
for any hash function and any expected sizes/hashes (only the member
names matter).  In mode `WARN` a nonempty finding list becomes exactly
one aggregated warning and extraction still proceeds (unless dry-run).
In mode `ERROR` a nonempty finding list fails the whole call with the
aggregated message — a header plus one ` - ` line per finding — and
nothing is extracted (the call never reaches `mkdir`/`extractall`). -/
theorem c2_verification_modes :
    (∀ (h1 h2 : List Nat → Str) (zf : Archive) (e1 e2 : List ManifestEntry) (d : Bool),
      e1.map (fun e => e.member) = e2.map (fun e => e.member) →
      expandAndVerify h1 zf e1 (("NONE").toList) d = expandAndVerify h2 zf e2 (("NONE").toList) d) ∧
    (∀ (h : List Nat → Str) (zf : Archive) (entries : List ManifestEntry) (d : Bool)
        (fs : List Finding),
      entries ≠ [] → missingMembers zf entries = [] →
      verifyEntries h zf entries = .ok fs → fs ≠ [] →
      expandAndVerify h zf entries (("WARN").toList) d =
        .ok ⟨[findingsMessage fs], if d then [] else entries.map (fun e => e.member), !d, none⟩) ∧
    (∀ (h : List Nat → Str) (zf : Archive) (entries : List ManifestEntry) (d : Bool)
        (fs : List Finding),
      entries ≠ [] → missingMembers zf entries = [] →
      verifyEntries h zf entries = .ok fs → fs ≠ [] →
      expandAndVerify h zf entries (("ERROR").toList) d = .error (findingsMessage fs) ∧
      findingsMessage fs =
        ("Integrity verification found issues:\n").toList ++
          joinC '\n' (fs.map (fun f => (" - ").toList ++ f.render))) := by
  refine ⟨?_, ?_, ?_⟩
  · intro h1 h2 zf e1 e2 d hm
    have hmode : modeOf (("NONE").toList) = ("NONE").toList := by decide
    unfold expandAndVerify
    rw [hmode]
    by_cases he1 : e1 = []
    · have he2 : e2 = [] := by
        rw [he1] at hm
        exact List.map_eq_nil_iff.mp hm.symm
      rw [if_pos he1, if_pos he2]
    · have he2 : e2 ≠ [] := by
        intro he2
        rw [he2] at hm
        exact he1 (List.map_eq_nil_iff.mp hm)
      have hmiss := missingMembers_congr zf hm
      rw [if_neg he1, if_neg he2, hmiss]
      have hmne : ¬(("NONE").toList ≠ ("NONE").toList) := by simp
      by_cases hms : missingMembers zf e2 ≠ []
      · rw [if_pos hms, if_pos hms]
      · rw [if_neg hms, if_neg hms, if_neg hmne, if_neg hmne]
        cases d <;> simp [hm]
  · intro h zf entries d fs hne hmiss hver hfs
    have hmode : modeOf (("WARN").toList) = ("WARN").toList := by decide
    unfold expandAndVerify
    rw [hmode, if_neg hne, if_neg (by simp [hmiss]), if_pos (by decide)]
    split
    · rename_i m heq
      rw [hver] at heq
      simp at heq
    · rename_i findings heq
      rw [hver] at heq
      injection heq with heq
      subst heq
      rw [if_pos hfs, if_neg (by decide)]
      cases d <;> simp
  · intro h zf entries d fs hne hmiss hver hfs
    refine ⟨?_, rfl⟩
    have hmode : modeOf (("ERROR").toList) = ("ERROR").toList := by decide
    unfold expandAndVerify
    rw [hmode, if_neg hne, if_neg (by simp [hmiss]), if_pos (by decide)]
    split
    · rename_i m heq
      rw [hver] at heq
      simp at heq
    · rename_i findings heq
      rw [hver] at heq
      injection heq with heq
      subst heq
      rw [if_pos hfs, if_pos (by decide)]

/-- Fixed hash model used by concrete witnesses: every byte stream hashes
to `"abcd"` except the empty one. -/
def anyHash : List Nat → Str := fun d => if d = [] then ("e3b0").toList else ("abcd").toList

def c2member : Member := ⟨1000, [7]⟩

def c2zf : Archive := [(("ms-python.vsix").toList, c2member)]

def c2entries : List ManifestEntry := [⟨("ms-python.vsix").toList, some 1024, none⟩]

def c2findings : List Finding :=
  [.sizeMismatch (("ms-python.vsix").toList) 1024 1000, .missingHash (("ms-python.vsix").toList)]

theorem c2_verification_modes_witness :
    (c2entries ≠ [] ∧ missingMembers c2zf c2entries = [] ∧
      verifyEntries anyHash c2zf c2entries = .ok c2findings ∧ c2findings ≠ []) ∧
    (expandAndVerify anyHash c2zf c2entries (("ERROR").toList) false =
        .error (findingsMessage c2findings) ∧
      findingsMessage c2findings =
        ("Integrity verification found issues:\n").toList ++
          joinC '\n' (c2findings.map (fun f => (" - ").toList ++ f.render))) :=
  ⟨⟨by decide, by decide, by decide, by decide⟩,
    c2_verification_modes.2.2 anyHash c2zf c2entries false c2findings
      (by decide) (by decide) (by decide) (by decide)⟩

/-- C3: per-entry verification against an open archive, for a member the
archive lookup finds.  A present expected size yields a size-mismatch
finding exactly when it differs from the member's actual size; an absent
(or empty) expected hash yields a missing-hash finding, no hash-mismatch
finding, and no hashing at all (the result does not depend on the hash
function); a present hash yields a mismatch finding exactly when the
digest differs from it. -/
theorem sizeFindings_shape (info : Member) (e : ManifestEntry) :
    sizeFindings info e = [] ∨
    ∃ s, e.size = some s ∧ info.fileSize ≠ s ∧
      sizeFindings info e = [.sizeMismatch e.member s info.fileSize] := by
  unfold sizeFindings
  rcases h : e.size with _ | s
  · exact Or.inl rfl
  · by_cases hsz : info.fileSize = s
    · exact Or.inl (by simp [hsz])
    · exact Or.inr ⟨s, rfl, hsz, by simp [hsz]⟩

theorem sizeMismatch_only_mem_sizeFindings (info : Member) (e : ManifestEntry) (f : Finding)
    (hf : f ∈ sizeFindings info e) :
    ∃ s, e.size = some s ∧ info.fileSize ≠ s ∧ f = .sizeMismatch e.member s info.fileSize := by
  rcases sizeFindings_shape info e with hsh | ⟨s, hs, hne, hsh⟩
  · rw [hsh] at hf; simp at hf
  · rw [hsh] at hf
    rcases List.mem_singleton.mp hf with h
    exact ⟨s, hs, hne, h⟩

/-- C3: per-entry verification against an open archive, for a member the
archive lookup finds.  A present expected size yields a size-mismatch
finding exactly when it differs from the member's actual size; an absent
(or empty) expected hash yields a missing-hash finding, no hash-mismatch
finding, and no hashing at all (the result does not depend on the hash
function); a present hash yields a mismatch finding exactly when the
digest differs from it. -/
theorem c3_entry_verification (hash : List Nat → Str) (zf : Archive) (e : ManifestEntry)
    (info : Member) (hinfo : lookupMember zf e.member = some info) :
    entryVerify hash zf e = .ok (entryVerifyCore hash info e) ∧
    (∀ s, e.size = some s →
      (Finding.sizeMismatch e.member s info.fileSize ∈ entryVerifyCore hash info e ↔
        info.fileSize ≠ s)) ∧
    (e.sha256 = none ∨ e.sha256 = some [] →
      Finding.missingHash e.member ∈ entryVerifyCore hash info e ∧
      (∀ m ex act, Finding.shaMismatch m ex act ∉ entryVerifyCore hash info e) ∧
      (∀ hashFn : List Nat → Str, entryVerifyCore hashFn info e = entryVerifyCore hash info e)) ∧
    (∀ h, e.sha256 = some h → h ≠ [] →
      (Finding.shaMismatch e.member h (hash info.data) ∈ entryVerifyCore hash info e ↔
        hash info.data ≠ h)) := by
  refine ⟨?_, ?_, ?_, ?_⟩
  · unfold entryVerify
    rw [hinfo]
  · intro s hs
    constructor
    · intro hmem
      rcases List.mem_append.mp hmem with h2 | h2
      · rcases sizeMismatch_only_mem_sizeFindings info e _ h2 with ⟨s2, hs2, hne2, heq⟩
        rw [hs] at hs2
        injection hs2 with hs2
        subst hs2
        exact hne2
      · exfalso
        unfold hashFindings at h2
        rcases hsha : e.sha256 with _ | h <;> rw [hsha] at h2
        · simp at h2
        · by_cases hh : h = [] <;> by_cases hd : hash info.data = h <;> simp [hh, hd] at h2
    · intro hne
      refine List.mem_append.mpr (Or.inl ?_)
      unfold sizeFindings
      rw [hs]
      simp [hne]
  · intro hnone
    have hh : ∀ hashFn : List Nat → Str,
        hashFindings hashFn info e = [.missingHash e.member] := by
      intro hashFn
      unfold hashFindings
      rcases hnone with h | h <;> rw [h]
      simp
    refine ⟨?_, ?_, ?_⟩
    · exact List.mem_append.mpr (Or.inr (by rw [hh hash]; simp))
    · intro m ex act hmem
      rcases List.mem_append.mp hmem with h2 | h2
      · rcases sizeMismatch_only_mem_sizeFindings info e _ h2 with ⟨s, _, _, heq⟩
        simp at heq
      · rw [hh hash] at h2
        simp at h2
    · intro hashFn
      unfold entryVerifyCore
      rw [hh hashFn, hh hash]
  · intro h hsha hne
    have hh : hashFindings hash info e =
        if hash info.data ≠ h then [.shaMismatch e.member h (hash info.data)] else [] := by
      have hstep : hashFindings hash info e =
          if h = [] then [Finding.missingHash e.member]
          else if hash info.data ≠ h then [Finding.shaMismatch e.member h (hash info.data)]
          else [] := by
        unfold hashFindings
        rw [hsha]
      rw [hstep, if_neg hne]
    constructor
    · intro hmem
      rcases List.mem_append.mp hmem with h2 | h2
      · rcases sizeMismatch_only_mem_sizeFindings info e _ h2 with ⟨s, _, _, heq⟩
        simp at heq
      · rw [hh] at h2
        by_cases hd : hash info.data = h
        · rw [if_neg (not_not_intro hd)] at h2
          simp at h2
        · exact hd
    · intro hd
      refine List.mem_append.mpr (Or.inr ?_)
      rw [hh, if_pos hd]
      simp

def c3member : Member := ⟨3, [1, 2, 3]⟩

def c3zf : Archive := [(("ext.vsix").toList, c3member)]

def c3entry : ManifestEntry := ⟨("ext.vsix").toList, some 5, some (("ffff").toList)⟩

theorem c3_entry_verification_witness :
    (lookupMember c3zf c3entry.member = some c3member ∧ c3entry.sha256 = some (("ffff").toList) ∧
      ("ffff").toList ≠ ([] : Str)) ∧
    (Finding.shaMismatch c3entry.member (("ffff").toList) (anyHash c3member.data) ∈
        entryVerifyCore anyHash c3member c3entry ↔
      anyHash c3member.data ≠ ("ffff").toList) :=
  ⟨⟨by decide, by decide, by decide⟩,
    (c3_entry_verification anyHash c3zf c3entry c3member (by decide)).2.2.2
      (("ffff").toList) (by decide) (by decide)⟩

theorem expandAndVerify_ok_fields (hash : List Nat → Str) (zf : Archive)
    (entries : List ManifestEntry) (vi : Str) (d : Bool) (r : ExpandResult)
    (hok : expandAndVerify hash zf entries vi d = .ok r) :
    r.retval = none ∧
    r.extracted = (if d then [] else entries.map (fun e => e.member)) ∧
    r.madeTargetDir = (!d && decide (entries ≠ [])) := by
  unfold expandAndVerify at hok
  split_ifs at hok <;>
    first
    | exact Except.noConfusion hok
    | (injection hok with hok; rw [← hok]; cases d <;> simp_all)
    | (split at hok <;>
        first
        | exact Except.noConfusion hok
        | (injection hok with hok; rw [← hok]; cases d <;> simp_all)
        | (split_ifs at hok <;>
            first
            | exact Except.noConfusion hok
            | (injection hok with hok; rw [← hok]; cases d <;> simp_all)))

/-- C4 (amended): `expand_and_verify`'s extraction contract as the code
implements it.  The function returns `None` on every path (never the
count); a dry run succeeds or fails exactly like a real run (`exceptOk`
parity) but writes nothing — no target-directory creation, no extraction;
a real run extracts exactly the manifest-approved member list and (when
there is at least one entry) creates the target directory first. -/
theorem c4_extract_contract :
    (∀ (hash : List Nat → Str) (zf : Archive) (entries : List ManifestEntry) (vi : Str)
        (d : Bool) (r : ExpandResult),
      expandAndVerify hash zf entries vi d = .ok r → r.retval = none) ∧
    (∀ (hash : List Nat → Str) (zf : Archive) (entries : List ManifestEntry) (vi : Str),
      exceptOk (expandAndVerify hash zf entries vi true) =
        exceptOk (expandAndVerify hash zf entries vi false)) ∧
    (∀ (hash : List Nat → Str) (zf : Archive) (entries : List ManifestEntry) (vi : Str)
        (r : ExpandResult),
      expandAndVerify hash zf entries vi true = .ok r →
        r.extracted = [] ∧ r.madeTargetDir = false) ∧
    (∀ (hash : List Nat → Str) (zf : Archive) (entries : List ManifestEntry) (vi : Str)
        (r : ExpandResult),
      expandAndVerify hash zf entries vi false = .ok r →
        r.extracted = entries.map (fun e => e.member) ∧
        (entries ≠ [] → r.madeTargetDir = true)) := by
  refine ⟨?_, ?_, ?_, ?_⟩
  · intro hash zf entries vi d r hok
    exact (expandAndVerify_ok_fields hash zf entries vi d r hok).1
  · intro hash zf entries vi
    unfold expandAndVerify
    by_cases h1 : entries = []
    · rw [if_pos h1, if_pos h1]
    · rw [if_neg h1, if_neg h1]
      by_cases h2 : missingMembers zf entries ≠ []
      · rw [if_pos h2, if_pos h2]
      · rw [if_neg h2, if_neg h2]
        by_cases h3 : modeOf vi ≠ ("NONE").toList
        · rw [if_pos h3, if_pos h3]
          rcases hv : verifyEntries hash zf entries with m | fs
          · simp only [hv]
          · simp only [hv]
            by_cases h4 : fs ≠ []
            · rw [if_pos h4, if_pos h4]
              by_cases h5 : modeOf vi = ("ERROR").toList
              · rw [if_pos h5, if_pos h5]
                try rfl
              · rw [if_neg h5, if_neg h5]
                try rfl
            · rw [if_neg h4, if_neg h4]
              try rfl
        · rw [if_neg h3, if_neg h3]
          try rfl
  · intro hash zf entries vi r hok
    obtain ⟨-, h2, h3⟩ := expandAndVerify_ok_fields hash zf entries vi true r hok
    exact ⟨by simpa using h2, by simpa using h3⟩
  · intro hash zf entries vi r hok
    obtain ⟨-, h2, h3⟩ := expandAndVerify_ok_fields hash zf entries vi false r hok
    refine ⟨by simpa using h2, fun hne => ?_⟩
    rw [h3]
    simp [hne]

def c4zf : Archive := [(("ext.vsix").toList, ⟨3, [1, 2, 3]⟩)]

def c4entries : List ManifestEntry := [⟨("ext.vsix").toList, some 3, none⟩]

def c4result : ExpandResult := ⟨[], [("ext.vsix").toList], true, none⟩

/-- C4 counterexample: the claim says the extract operation "returns the
count of extracted members", but on a run that extracts one member the
source's return value is `None` (`retval = none`), not the count `1`. -/
theorem c4_extract_counterexample :
    expandAndVerify anyHash c4zf c4entries (("NONE").toList) false = .ok c4result ∧
    c4result.extracted.length = 1 ∧
    c4result.retval ≠ some c4result.extracted.length := by
  refine ⟨by decide, by decide, by decide⟩

theorem c4_extract_contract_witness :
    (expandAndVerify anyHash c4zf c4entries (("NONE").toList) false = .ok c4result) ∧
    (c4result.extracted = c4entries.map (fun e => e.member) ∧
      (c4entries ≠ [] → c4result.madeTargetDir = true)) :=
  ⟨by decide,
    c4_extract_contract.2.2.2 anyHash c4zf c4entries (("NONE").toList) c4result (by decide)⟩

/-! ## ReplaceModePlanner / BackupManager: embedding of backup_cleanup.py.

Filesystem paths are abstract: `backupInTarget` models the result of
`_is_within(backup, target)` (a pure check on resolved paths), the
scanned directory listing and the parsed manifest are inputs, and the
mutation side effects are recorded as an `RmEvent` trace. -/

/-- An installed extension (`_scan_extensions` record): identity, version
and the on-disk path (modelled by the item's name). -/
structure Ext where
  id : Str
  version : Option Str
  path : Str
deriving DecidableEq

/-- The regex class `\d`. -/
def isDigitC (c : Char) : Bool := 48 ≤ c.toNat ∧ c.toNat ≤ 57

/-- The regex class `\w` (ASCII model). -/
def isWordC (c : Char) : Bool :=
  isDigitC c ∨ (65 ≤ c.toNat ∧ c.toNat ≤ 90) ∨ (97 ≤ c.toNat ∧ c.toNat ≤ 122) ∨ c.toNat = 95

/-- The regex class `[\w.\-]`. -/
def versionTailC (c : Char) : Bool := isWordC c ∨ c = '.' ∨ c = '-'

/-- `_VERSION_TOKEN = re.compile(r"^(latest|v?\d[\w.\-]*)$", re.IGNORECASE)`:
`latest` case-insensitively, or an optional `v`/`V`, then a digit, then
word/dot/hyphen characters to the end. -/
def versionToken (s : Str) : Bool :=
  pyLower s = ("latest").toList ||
  (match s with
   | [] => false
   | c :: rest =>
     if c = 'v' ∨ c = 'V' then
       match rest with
       | [] => false
       | d :: rest2 => isDigitC d && rest2.all versionTailC
     else isDigitC c && rest.all versionTailC)

/-- `PurePosixPath(raw).name`: the last real path component (pathlib
drops empty and `.` components; empty for the root or the empty path). -/
def pathLeaf (s : Str) : Str :=
  (((splitC '/' s).filter (fun p => decide (p ≠ [] ∧ p ≠ ['.']))).getLast?).getD []

/-- The tail of `_split_name` (lines 182-188), on the already-computed
base name: split on `-`; when there are at least two pieces and the last
is a version token, the lowercased join of the rest is the identity (or
`None` when empty) and the lowercased token the version; otherwise the
whole lowercased base is the identity with no version. -/
def splitBase (base : Str) : Option Str × Option Str :=
  if 2 ≤ (splitC '-' base).length then
    if versionToken (((splitC '-' base).getLast?).getD []) then
      ((if pyLower (joinC '-' (splitC '-' base).dropLast) = [] then none
        else some (pyLower (joinC '-' (splitC '-' base).dropLast))),
       some (pyLower (((splitC '-' base).getLast?).getD [])))
    else (some (pyLower base), none)
  else (some (pyLower base), none)

/-- `_split_name` (lines 177-188): empty names split to nothing; the
path leaf, with a case-insensitive `.vsix` extension dropped, goes
through `splitBase`. -/
def splitName (rawName : Str) : Option Str × Option Str :=
  if rawName = [] then (none, none)
  else
    splitBase
      (if ((".vsix").toList).isSuffixOf (pyLower (pathLeaf rawName)) then
        (pathLeaf rawName).take ((pathLeaf rawName).length - 5)
      else pathLeaf rawName)

/-- One entry of `target.iterdir()`: its name and whether it is a
directory. -/
structure DirItem where
  name : Str
  isDir : Bool
deriving DecidableEq

/-- `PurePath.suffix`: `name[i:]` for `i = name.rfind('.')` when
`0 < i < len(name) - 1`, else empty. -/
def pathSuffix (nm : Str) : Str :=
  if '.' ∈ nm then
    if 0 < nm.length - ((nm.reverse.takeWhile (fun c => decide (c ≠ '.'))).reverse).length - 1 ∧
        (nm.reverse.takeWhile (fun c => decide (c ≠ '.'))).reverse ≠ [] then
      '.' :: (nm.reverse.takeWhile (fun c => decide (c ≠ '.'))).reverse
    else []
  else []

/-- `_scan_extensions`: skip dotfiles, keep directories and (by
case-insensitive suffix) `.vsix` files, split each name, and keep items
with a truthy identity. -/
def scanExtensions (items : List DirItem) : List Ext :=
  items.filterMap (fun it =>
    if it.name.head? = some '.' then none
    else if ¬(it.isDir = true ∨ pyLower (pathSuffix it.name) = (".vsix").toList) then none
    else
      match splitName it.name with
      | (some ident, version) => if ident = [] then none else some ⟨ident, version, it.name⟩
      | (none, _) => none)

/-- A raw manifest `files` element (the fields `_load_manifest` reads). -/
structure RawFile where
  present : Bool
  name : Option Str
  path : Option Str
deriving DecidableEq

/-- Python's falsy `or` on optional strings (`None` and `""` are falsy). -/
def pyOr (a b : Option Str) : Option Str :=
  match a with
  | some s => if s = [] then b else some s
  | none => b

/-- `_load_manifest` after the JSON parse: keep `present` entries, name
each by `name` falling back to `path`, split, keep truthy identities. -/
def loadManifest (files : List RawFile) : List (Str × Option Str) :=
  files.filterMap (fun f =>
    if f.present = false then none
    else
      match splitName ((pyOr f.name f.path).getD []) with
      | (some ident, version) => if ident = [] then none else some (ident, version)
      | (none, _) => none)

/-- An include/exclude rule as configured (the fields `_normalize_rules`
reads). -/
structure Rule where
  name : Option Str
  version : Option Str
deriving DecidableEq

/-- `_normalize_version`: strip, lowercase, empty becomes `None`. -/
def normalizeVersion (v : Option Str) : Option Str :=
  match v with
  | none => none
  | some s => if pyLower (pyStrip s) = [] then none else some (pyLower (pyStrip s))

/-- `_normalize_rules`: lowercased stripped names (empty names dropped)
paired with normalized versions. -/
def normalizeRules (rules : List Rule) : List (Str × Option Str) :=
  rules.filterMap (fun r =>
    if pyLower (pyStrip (r.name.getD [])) = [] then none
    else some (pyLower (pyStrip (r.name.getD [])), normalizeVersion r.version))

/-- `_same_version`: equality after normalization. -/
def sameVersion (a b : Option Str) : Bool :=
  decide (normalizeVersion a = normalizeVersion b)

/-- `_rule_matches`. -/
def ruleMatches (rule : Str × Option Str) (name : Str) (version : Option Str) : Bool :=
  if name ≠ rule.1 then false
  else
    match rule.2 with
    | none => true
    | some rv => sameVersion (some rv) version

/-- Insertion-ordered dict update `d[k] = v`. -/
def dictInsert (d : List (Str × Option Str)) (k : Str) (v : Option Str) :
    List (Str × Option Str) :=
  if d.any (fun p => decide (p.1 = k)) then d.map (fun p => if p.1 = k then (k, v) else p)
  else d ++ [(k, v)]

/-- `dict.get(k)` with the `None` default: a missing key and a key mapped
to `None` are indistinguishable to the caller (as in `_changed`). -/
def dget (d : List (Str × Option Str)) (k : Str) : Option Str :=
  match d.find? (fun p => decide (p.1 = k)) with
  | some p => p.2
  | none => none

/-- The loop body of `_select_manifest_entries` over normalized include
and exclude rules: exclude rules drop matches, include rules (when any)
restrict to matches; survivors fill an insertion-ordered dict. -/
def selectStep (inc exc : List (Str × Option Str)) (acc : List (Str × Option Str))
    (nv : Str × Option Str) : List (Str × Option Str) :=
  if exc ≠ [] ∧ exc.any (fun r => ruleMatches r nv.1 nv.2) = true then acc
  else if inc ≠ [] ∧ ¬inc.any (fun r => ruleMatches r nv.1 nv.2) = true then acc
  else dictInsert acc nv.1 nv.2

/-- `_select_manifest_entries` (the final line returns `{}` when include
rules exist but nothing survived — which is already the empty dict). -/
def selectManifestEntries (entries : List (Str × Option Str))
    (includeRules excludeRules : List Rule) : List (Str × Option Str) :=
  if entries.foldl (selectStep (normalizeRules includeRules) (normalizeRules excludeRules)) [] ≠ [] ∨
      normalizeRules includeRules = [] then
    entries.foldl (selectStep (normalizeRules includeRules) (normalizeRules excludeRules)) []
  else []

/-- The keep-predicate of `_changed`: a desired version exists for the
identity and differs (after normalization) from the installed one. -/
def changedKeep (desired : List (Str × Option Str)) (e : Ext) : Bool :=
  match dget desired e.id with
  | none => false
  | some w => !sameVersion (some w) e.version

/-- `_changed`. -/
def changed (installed : List Ext) (desired : List (Str × Option Str)) : List Ext :=
  installed.filter (changedKeep desired)

/-- Line 68 of `apply_replace_mode`: the victim set by (validated,
non-`NONE`) mode. -/
def planVictims (normalized : Str) (installed : List Ext)
    (desired : List (Str × Option Str)) : List Ext :=
  if normalized = ("CLEAN").toList then installed else changed installed desired

/-- Observable filesystem actions of `apply_replace_mode`. -/
inductive RmEvent where
  | mkdirTarget
  | mkdirTemp
  | mkdirBackup
  | scanTarget
  | readManifest
  | createSession
  | copyItem (path : Str)
  | removeItem (path : Str)
  | renameItem (path : Str)
deriving DecidableEq

/-- `_backup_and_remove`'s per-victim loop: copy (`copytree`/`copy2`),
then delete (`rmtree`/`unlink`).  `copyFails` abstracts an OS error while
copying the given victim; the raised exception aborts the loop before
that victim's delete. -/
def moveLoop (copyFails : Str → Bool) : List Ext → List RmEvent × Except Str Unit
  | [] => ([], .ok ())
  | v :: vs =>
    if copyFails v.path then
      ([.copyItem v.path], .error (("copy failed: ").toList ++ v.path))
    else
      (.copyItem v.path :: .removeItem v.path :: (moveLoop copyFails vs).1,
       (moveLoop copyFails vs).2)

/-- `_backup_and_remove`: create the session directory, then move each
victim in order. -/
def backupAndRemove (victims : List Ext) (copyFails : Str → Bool) :
    List RmEvent × Except Str Unit :=
  (.createSession :: (moveLoop copyFails victims).1, (moveLoop copyFails victims).2)

/-- Embedding of `apply_replace_mode` as an event trace plus outcome:
mode validation (before any mkdir), the three `mkdir` calls, the
backup-inside-target guard, the `NONE` early return, the scan, the
manifest load, victim planning, and `_backup_and_remove`.  The mode
normalization `(mode or "NONE").upper()` is the same expression as
`modeOf`. -/
def applyReplaceMode (mode : Str) (backupInTarget : Bool) (installed : List Ext)
    (manifestFiles : Option (List RawFile)) (includeRules excludeRules : List Rule)
    (copyFails : Str → Bool) : List RmEvent × Except Str Unit :=
  if ¬(modeOf mode = ("NONE").toList ∨ modeOf mode = ("REPLACE").toList ∨
       modeOf mode = ("CLEAN").toList) then
    ([], .error (("Unsupported replace mode: ").toList ++ mode))
  else if backupInTarget then
    ([.mkdirTarget, .mkdirTemp, .mkdirBackup],
     .error (("Backup directory cannot be inside the target directory.").toList))
  else if modeOf mode = ("NONE").toList then
    ([.mkdirTarget, .mkdirTemp, .mkdirBackup], .ok ())
  else if installed = [] then
    ([.mkdirTarget, .mkdirTemp, .mkdirBackup, .scanTarget], .ok ())
  else
    match manifestFiles with
    | none =>
      ([.mkdirTarget, .mkdirTemp, .mkdirBackup, .scanTarget, .readManifest],
       .error (("Manifest file not found").toList))
    | some files =>
      let desired := selectManifestEntries (loadManifest files) includeRules excludeRules
      let victims := planVictims (modeOf mode) installed desired
      if victims = [] then
        ([.mkdirTarget, .mkdirTemp, .mkdirBackup, .scanTarget, .readManifest], .ok ())
      else
        ([.mkdirTarget, .mkdirTemp, .mkdirBackup, .scanTarget, .readManifest] ++
           (backupAndRemove victims copyFails).1,
         (backupAndRemove victims copyFails).2)

/-- C5: the replace-mode planner.  `CLEAN` selects every installed item;
`REPLACE` selects an installed item exactly when the desired set holds a
version for its identity that differs from the installed version under
normalized (case-insensitive, trimmed) comparison — identities absent
from the desired set are never selected; under `NONE`,
`apply_replace_mode` produces an empty plan (no copy/remove events) and
performs no scan. -/
theorem c5_replace_mode_planning :
    (∀ (installed : List Ext) (desired : List (Str × Option Str)),
      planVictims (("CLEAN").toList) installed desired = installed) ∧
    (∀ (installed : List Ext) (desired : List (Str × Option Str)) (e : Ext),
      e ∈ planVictims (("REPLACE").toList) installed desired ↔
        e ∈ installed ∧ ∃ w, dget desired e.id = some w ∧
          normalizeVersion (some w) ≠ normalizeVersion e.version) ∧
    (∀ (installed : List Ext) (desired : List (Str × Option Str)) (e : Ext),
      e ∈ installed → dget desired e.id = none →
        e ∉ planVictims (("REPLACE").toList) installed desired) ∧
    (∀ (bIT : Bool) (installed : List Ext) (mf : Option (List RawFile))
        (inc exc : List Rule) (cf : Str → Bool),
      (applyReplaceMode (("NONE").toList) bIT installed mf inc exc cf).1 =
        [RmEvent.mkdirTarget, RmEvent.mkdirTemp, RmEvent.mkdirBackup] ∧
      RmEvent.scanTarget ∉ (applyReplaceMode (("NONE").toList) bIT installed mf inc exc cf).1 ∧
      (∀ p, RmEvent.copyItem p ∉ (applyReplaceMode (("NONE").toList) bIT installed mf inc exc cf).1 ∧
        RmEvent.removeItem p ∉ (applyReplaceMode (("NONE").toList) bIT installed mf inc exc cf).1)) := by
  refine ⟨?_, ?_, ?_, ?_⟩
  · intro installed desired
    unfold planVictims
    rw [if_pos rfl]
  · intro installed desired e
    unfold planVictims
    rw [if_neg (by decide)]
    unfold changed
    rw [List.mem_filter]
    constructor
    · rintro ⟨hmem, hkeep⟩
      refine ⟨hmem, ?_⟩
      unfold changedKeep at hkeep
      rcases hd : dget desired e.id with _ | w
      · rw [hd] at hkeep
        simp at hkeep
      · rw [hd] at hkeep
        refine ⟨w, rfl, ?_⟩
        unfold sameVersion at hkeep
        simpa using hkeep
    · rintro ⟨hmem, w, hd, hne⟩
      refine ⟨hmem, ?_⟩
      unfold changedKeep
      rw [hd]
      unfold sameVersion
      simpa using hne
  · intro installed desired e _ hnone hmem
    unfold planVictims at hmem
    rw [if_neg (by decide)] at hmem
    unfold changed at hmem
    have hkeep := (List.mem_filter.mp hmem).2
    unfold changedKeep at hkeep
    rw [hnone] at hkeep
    simp at hkeep
  · intro bIT installed mf inc exc cf
    have h1 : ¬¬(modeOf (("NONE").toList) = ("NONE").toList ∨
        modeOf (("NONE").toList) = ("REPLACE").toList ∨
        modeOf (("NONE").toList) = ("CLEAN").toList) := by decide
    unfold applyReplaceMode
    rw [if_neg h1]
    cases bIT
    · rw [if_neg (by simp), if_pos (by decide)]
      exact ⟨rfl, by simp, fun p => ⟨by simp, by simp⟩⟩
    · rw [if_pos rfl]
      exact ⟨rfl, by simp, fun p => ⟨by simp, by simp⟩⟩

def c5ext : Ext := ⟨("foo.bar").toList, some (("1.0.0").toList), ("foo.bar-1.0.0").toList⟩

def c5installed : List Ext := [c5ext]

theorem c5_replace_mode_planning_witness :
    (c5ext ∈ c5installed ∧ dget [] c5ext.id = none) ∧
    c5ext ∉ planVictims (("REPLACE").toList) c5installed [] :=
  ⟨⟨by decide, by decide⟩,
    c5_replace_mode_planning.2.2.1 c5installed [] c5ext (by decide) (by decide)⟩

/-- C6 (amended): when the backup root resolves inside the target
directory, `apply_replace_mode` fails with the configuration error before
scanning, loading the manifest, creating a session directory, or copying
or removing anything — but after its three `mkdir` calls: the source
creates the target, temp and backup directories (lines 49-51) before the
`_is_within` check (line 53), so directory creation does happen. -/
theorem c6_backup_nesting_guard (mode : Str) (installed : List Ext)
    (mf : Option (List RawFile)) (inc exc : List Rule) (cf : Str → Bool)
    (hvalid : modeOf mode = ("NONE").toList ∨ modeOf mode = ("REPLACE").toList ∨
      modeOf mode = ("CLEAN").toList) :
    applyReplaceMode mode true installed mf inc exc cf =
      ([RmEvent.mkdirTarget, RmEvent.mkdirTemp, RmEvent.mkdirBackup],
       .error (("Backup directory cannot be inside the target directory.").toList)) := by
  unfold applyReplaceMode
  rw [if_neg (not_not_intro hvalid), if_pos rfl]

/-- C6 counterexample: the claim says "no directory is created" when the
backup root is inside the target, but the trace of a `CLEAN` run with a
nested backup root contains the `mkdir` of the backup directory (and of
the target and temp directories) before the configuration error. -/
theorem c6_backup_nesting_counterexample :
    (applyReplaceMode (("CLEAN").toList) true [] none [] [] (fun _ => false)).2 =
      .error (("Backup directory cannot be inside the target directory.").toList) ∧
    RmEvent.mkdirBackup ∈
      (applyReplaceMode (("CLEAN").toList) true [] none [] [] (fun _ => false)).1 := by
  exact ⟨by decide, by decide⟩

theorem c6_backup_nesting_guard_witness :
    (modeOf (("REPLACE").toList) = ("NONE").toList ∨
      modeOf (("REPLACE").toList) = ("REPLACE").toList ∨
      modeOf (("REPLACE").toList) = ("CLEAN").toList) ∧
    applyReplaceMode (("REPLACE").toList) true [] none [] [] (fun _ => false) =
      ([RmEvent.mkdirTarget, RmEvent.mkdirTemp, RmEvent.mkdirBackup],
       .error (("Backup directory cannot be inside the target directory.").toList)) :=
  ⟨by decide,
    c6_backup_nesting_guard (("REPLACE").toList) [] none [] [] (fun _ => false) (by decide)⟩

theorem moveLoop_no_rename (cf : Str → Bool) (vs : List Ext) :
    ∀ p, RmEvent.renameItem p ∉ (moveLoop cf vs).1 := by
  induction vs with
  | nil => intro p; simp [moveLoop]
  | cons v vs ih =>
    intro p
    unfold moveLoop
    by_cases hc : cf v.path = true
    · simp [hc]
    · simp only [hc, if_false, if_neg hc]
      intro hmem
      rcases List.mem_cons.mp hmem with h | h
      · exact RmEvent.noConfusion h
      · rcases List.mem_cons.mp h with h2 | h2
        · exact RmEvent.noConfusion h2
        · exact ih p h2

theorem moveLoop_remove (cf : Str → Bool) (vs : List Ext) (p : Str)
    (h : RmEvent.removeItem p ∈ (moveLoop cf vs).1) :
    cf p = false ∧
    List.Sublist [RmEvent.copyItem p, RmEvent.removeItem p] (moveLoop cf vs).1 := by
  induction vs with
  | nil => simp [moveLoop] at h
  | cons v vs ih =>
    unfold moveLoop at h ⊢
    by_cases hc : cf v.path = true
    · rw [if_pos hc] at h
      simp at h
    · rw [if_neg hc] at h ⊢
      rcases List.mem_cons.mp h with h2 | h2
      · exact RmEvent.noConfusion h2
      · rcases List.mem_cons.mp h2 with h3 | h3
        · have hp : p = v.path := by injection h3
          subst hp
          refine ⟨by simpa using hc, ?_⟩
          exact (List.nil_sublist _).cons₂ _ |>.cons₂ _
        · obtain ⟨h4, h5⟩ := ih h3
          exact ⟨h4, (h5.trans (List.sublist_cons_self _ _)).trans
            (List.sublist_cons_self _ _)⟩

/-- C7 (amended): `_backup_and_remove` moves each victim by copy followed
by delete — the trace contains no rename; a victim's original is removed
only when its copy did not fail, and then its copy event precedes its
remove event in the trace (so a copy failure leaves that victim's
original in place).  The source interleaves the moves per victim, so the
session directory holds all copies before any delete only in the
single-victim case (see the counterexample). -/
theorem c7_backup_then_remove (victims : List Ext) (copyFails : Str → Bool) :
    (∀ p, RmEvent.renameItem p ∉ (backupAndRemove victims copyFails).1) ∧
    (∀ p, RmEvent.removeItem p ∈ (backupAndRemove victims copyFails).1 →
      copyFails p = false ∧
      List.Sublist [RmEvent.copyItem p, RmEvent.removeItem p]
        (backupAndRemove victims copyFails).1) := by
  constructor
  · intro p hmem
    rcases List.mem_cons.mp hmem with h | h
    · exact RmEvent.noConfusion h
    · exact moveLoop_no_rename copyFails victims p h
  · intro p hmem
    have hloop : RmEvent.removeItem p ∈ (moveLoop copyFails victims).1 := by
      rcases List.mem_cons.mp hmem with h | h
      · exact absurd h (by simp)
      · exact h
    obtain ⟨h1, h2⟩ := moveLoop_remove copyFails victims p hloop
    exact ⟨h1, h2.trans (List.sublist_cons_self _ _)⟩

def c7victims : List Ext :=
  [⟨("a").toList, none, ("a-1").toList⟩, ⟨("b").toList, none, ("b-1").toList⟩]

/-- C7 counterexample: with two victims and no failures, the first
victim's original is deleted (trace index 2) before the second victim is
copied into the session directory (trace index 3) — the backup session is
not fully populated before the first original is deleted. -/
theorem c7_backup_then_remove_counterexample :
    ((backupAndRemove c7victims (fun _ => false)).1)[2]? =
      some (RmEvent.removeItem (("a-1").toList)) ∧
    ((backupAndRemove c7victims (fun _ => false)).1)[3]? =
      some (RmEvent.copyItem (("b-1").toList)) ∧ 2 < 3 := by
  exact ⟨by decide, by decide, by decide⟩

def c7single : List Ext := [⟨("x").toList, none, ("x-1").toList⟩]

theorem c7_backup_then_remove_witness :
    RmEvent.removeItem (("x-1").toList) ∈ (backupAndRemove c7single (fun _ => false)).1 ∧
    ((fun (_ : Str) => false) (("x-1").toList) = false ∧
      List.Sublist [RmEvent.copyItem (("x-1").toList), RmEvent.removeItem (("x-1").toList)]
        (backupAndRemove c7single (fun _ => false)).1) :=
  ⟨by decide,
    (c7_backup_then_remove c7single (fun _ => false)).2 (("x-1").toList) (by decide)⟩

/-! ## RemoteServerPreseeder: embedding of `preseed_server`
(remote_server.py 9-87).

The commit directory is modelled as `Option (List FileEntry)` (`none` =
absent); each file records its name, directory flag, modification time
and executable bit, so "same contents including mtimes" is plain
equality.  `tarballExists` models `server_tarball_path.exists()`, `now`
the clock used by `touch`/`os.utime`. -/

/-- A member of the server tarball. -/
structure TarEntry where
  name : Str
  isDir : Bool
  mtime : Nat
  exec : Bool
deriving DecidableEq

/-- A file in the commit directory. -/
structure FileEntry where
  name : Str
  isDir : Bool
  mtime : Nat
  exec : Bool
deriving DecidableEq

/-- The wrapping top-level directory of the official tarball. -/
def wrapperName : Str := ("vscode-server-linux-x64").toList

/-- Per-member extraction (lines 46-63): skip the wrapper directory
entry, strip the `wrapper/` leading part, or extract verbatim. -/
def stripWrapper (m : TarEntry) : Option FileEntry :=
  if m.isDir = true ∧ m.name = wrapperName then none
  else if (wrapperName ++ ['/']).isPrefixOf m.name then
    some ⟨m.name.drop (wrapperName.length + 1), m.isDir, m.mtime, m.exec⟩
  else if m.name = wrapperName then none
  else some ⟨m.name, m.isDir, m.mtime, m.exec⟩

/-- `t.extract(member, target)`: overwrite a same-named file or add. -/
def upsert (fs : List FileEntry) (f : FileEntry) : List FileEntry :=
  if fs.any (fun g => decide (g.name = f.name)) then
    fs.map (fun g => if g.name = f.name then f else g)
  else fs ++ [f]

/-- The extraction loop over the tarball members. -/
def extractTar (tar : List TarEntry) : List FileEntry :=
  tar.foldl (fun acc m =>
    match stripWrapper m with
    | none => acc
    | some f => upsert acc f) []

/-- `_make_executable`. -/
def setExec (fs : List FileEntry) (n : Str) : List FileEntry :=
  fs.map (fun g => if g.name = n then {g with exec := true} else g)

/-- `(target / rel).exists()`. -/
def hasFile (fs : List FileEntry) (n : Str) : Bool :=
  fs.any (fun g => decide (g.name = n))

/-- Lines 67-70: `server.sh` only when present, then the mandatory
`node` and `bin/code-server`. -/
def requiredFiles (fs : List FileEntry) : List Str :=
  (if hasFile fs (("server.sh").toList) then [("server.sh").toList] else []) ++
  [("node").toList, ("bin/code-server").toList]

/-- Lines 72-76: for each required file in order, fail if missing, else
make it executable. -/
def validateLoop : List Str → List FileEntry → List FileEntry × Except Str Unit
  | [], fs => (fs, .ok ())
  | r :: rs, fs =>
    if hasFile fs r then validateLoop rs (setExec fs r)
    else (fs, .error (("Missing required server file: ").toList ++ r))

/-- The completion marker: a zero-byte file named `0`. -/
def markerName : Str := ['0']

def hasMarker : Option (List FileEntry) → Bool
  | none => false
  | some fs => hasFile fs markerName

/-- Embedding of `preseed_server`: tarball check, marker short-circuit,
corruption cleanup (`rmtree` of a marker-less directory, so the old
contents are discarded), `mkdir`, extraction, validation, and finally the
marker `touch` with its mtime set to `now`.  Returns the final state of
the commit directory together with the outcome. -/
def preseedServer (now : Nat) (tarballExists : Bool) (tar : List TarEntry)
    (st : Option (List FileEntry)) : Option (List FileEntry) × Except Str Unit :=
  if tarballExists = false then (st, .error (("Missing server tarball").toList))
  else if hasMarker st then (st, .ok ())
  else
    match validateLoop (requiredFiles (extractTar tar)) (extractTar tar) with
    | (fs2, .error e) => (some fs2, .error e)
    | (fs2, .ok _) => (some (upsert fs2 ⟨markerName, false, now, false⟩), .ok ())

theorem setExec_hasFile (fs : List FileEntry) (r n : Str) :
    hasFile (setExec fs r) n = hasFile fs n := by
  induction fs with
  | nil => rfl
  | cons g gs ih =>
    unfold setExec hasFile at *
    by_cases hg : g.name = r <;> simp [hg] at ih ⊢ <;> rw [← ih]

theorem validateLoop_hasFile (rs : List Str) (fs : List FileEntry) (n : Str) :
    hasFile (validateLoop rs fs).1 n = hasFile fs n := by
  induction rs generalizing fs with
  | nil => rfl
  | cons r rs ih =>
    unfold validateLoop
    by_cases hr : hasFile fs r = true
    · rw [if_pos hr, ih, setExec_hasFile]
    · rw [if_neg hr]

theorem setExec_preserves (fs : List FileEntry) (n r : Str)
    (h : ∃ g ∈ fs, g.name = r ∧ g.exec = true) :
    ∃ g ∈ setExec fs n, g.name = r ∧ g.exec = true := by
  obtain ⟨g, hg, hname, hexec⟩ := h
  refine ⟨if g.name = n then {g with exec := true} else g, ?_, ?_, ?_⟩
  · exact List.mem_map_of_mem _ hg
  · split_ifs <;> simpa using hname
  · split_ifs <;> simp [hexec]

theorem setExec_mem_self (fs : List FileEntry) (r : Str) (h : hasFile fs r = true) :
    ∃ g ∈ setExec fs r, g.name = r ∧ g.exec = true := by
  unfold hasFile at h
  rcases List.any_eq_true.mp h with ⟨g, hg, hname⟩
  rw [decide_eq_true_eq] at hname
  refine ⟨{g with exec := true}, ?_, by simpa using hname, rfl⟩
  have : (if g.name = r then ({g with exec := true} : FileEntry) else g) =
      ({g with exec := true} : FileEntry) := by rw [if_pos hname]
  rw [← this]
  exact List.mem_map_of_mem _ hg

theorem validateLoop_fst_preserves (rs : List Str) (fs : List FileEntry) (r : Str)
    (h : ∃ g ∈ fs, g.name = r ∧ g.exec = true) :
    ∃ g ∈ (validateLoop rs fs).1, g.name = r ∧ g.exec = true := by
  induction rs generalizing fs with
  | nil => exact h
  | cons r0 rs ih =>
    unfold validateLoop
    by_cases hr : hasFile fs r0 = true
    · rw [if_pos hr]
      exact ih (setExec fs r0) (setExec_preserves fs r0 r h)
    · rw [if_neg hr]
      exact h

theorem validateLoop_mem (rs : List Str) (fs fs2 : List FileEntry) (r : Str)
    (hr : r ∈ rs) (heq : validateLoop rs fs = (fs2, .ok ())) :
    ∃ g ∈ fs2, g.name = r ∧ g.exec = true := by
  induction rs generalizing fs with
  | nil => simp at hr
  | cons r0 rs ih =>
    unfold validateLoop at heq
    by_cases hf : hasFile fs r0 = true
    · rw [if_pos hf] at heq
      rcases List.mem_cons.mp hr with h | h
      · subst h
        have hpres := validateLoop_fst_preserves rs (setExec fs r) r (setExec_mem_self fs r hf)
        rw [heq] at hpres
        exact hpres
      · exact ih (setExec fs r0) h heq
    · rw [if_neg hf] at heq
      injection heq with h1 h2
      exact Except.noConfusion h2

theorem upsert_preserves (fs : List FileEntry) (f : FileEntry) (r : Str)
    (hne : f.name ≠ r) (h : ∃ g ∈ fs, g.name = r ∧ g.exec = true) :
    ∃ g ∈ upsert fs f, g.name = r ∧ g.exec = true := by
  obtain ⟨g, hg, hname, hexec⟩ := h
  unfold upsert
  split_ifs with hany
  · have hgn : ¬(g.name = f.name) := by
      rw [hname]
      exact fun hh => hne hh.symm
    have himg := List.mem_map_of_mem (fun g2 => if g2.name = f.name then f else g2) hg
    simp only [if_neg hgn] at himg
    exact ⟨g, himg, hname, hexec⟩
  · exact ⟨g, List.mem_append_left _ hg, hname, hexec⟩

theorem hasFile_upsert_self (fs : List FileEntry) (f : FileEntry) :
    hasFile (upsert fs f) f.name = true := by
  unfold upsert
  split_ifs with hany
  · unfold hasFile at hany ⊢
    rcases List.any_eq_true.mp hany with ⟨g, hg, hname⟩
    rw [decide_eq_true_eq] at hname
    have himg := List.mem_map_of_mem (fun g2 => if g2.name = f.name then f else g2) hg
    simp only [if_pos hname] at himg
    exact List.any_eq_true.mpr ⟨f, himg, by simp⟩
  · unfold hasFile
    exact List.any_eq_true.mpr ⟨f, List.mem_append_right _ (by simp), by simp⟩

/-- C8 (amended): the completion-marker invariant of `preseed_server`,
under the two preconditions the source forces: the marker is not already
present on entry, and the tarball does not itself contain a member that
extracts to the marker path.  Then: (a) when the tarball exists, an entry
state with an existing (marker-less, hence corrupt) commit directory is
handled exactly like an absent one — the directory is deleted and
reinstalled from scratch, never repaired in place; (b) a successful run
ends with the marker present and both mandatory files present and
executable (the marker is created only after validation); (c) every
failure path ends without a marker (directory absent or partial). -/
theorem c8_marker_invariant (now : Nat) (tarballExists : Bool) (tar : List TarEntry)
    (st : Option (List FileEntry))
    (hm : hasMarker st = false)
    (hz : hasFile (extractTar tar) markerName = false) :
    (tarballExists = true → ∀ fs, st = some fs →
      preseedServer now true tar st = preseedServer now true tar none) ∧
    (∀ c, preseedServer now tarballExists tar st = (some c, .ok ()) →
      hasFile c markerName = true ∧
      (∃ g ∈ c, g.name = ("node").toList ∧ g.exec = true) ∧
      (∃ g ∈ c, g.name = ("bin/code-server").toList ∧ g.exec = true)) ∧
    (∀ st2 e, preseedServer now tarballExists tar st = (st2, .error e) →
      hasMarker st2 = false) := by
  refine ⟨?_, ?_, ?_⟩
  · intro _ fs hst
    subst hst
    unfold preseedServer
    rw [if_neg (by simp), if_neg (by simp [hm]), if_neg (by simp),
      if_neg (by simp [hasMarker])]
  · intro c heq
    cases tarballExists with
    | false =>
      unfold preseedServer at heq
      rw [if_pos rfl] at heq
      injection heq with h1 h2
      exact Except.noConfusion h2
    | true =>
      unfold preseedServer at heq
      rw [if_neg (by simp), if_neg (by simp [hm])] at heq
      split at heq
      · rename_i fs2 e hloop
        injection heq with h1 h2
        exact Except.noConfusion h2
      · rename_i fs2 u hloop
        injection heq with h1 h2
        injection h1 with h1
        rw [← h1]
        have hnode : ("node").toList ∈ requiredFiles (extractTar tar) := by
          unfold requiredFiles
          exact List.mem_append_right _ (by simp)
        have hcli : ("bin/code-server").toList ∈ requiredFiles (extractTar tar) := by
          unfold requiredFiles
          exact List.mem_append_right _ (by simp)
        have hloop2 : validateLoop (requiredFiles (extractTar tar)) (extractTar tar) =
            (fs2, .ok ()) := by
          rw [hloop]
        refine ⟨?_, ?_, ?_⟩
        · exact hasFile_upsert_self fs2 ⟨markerName, false, now, false⟩
        · exact upsert_preserves fs2 ⟨markerName, false, now, false⟩ _
            (show markerName ≠ ("node").toList by decide)
            (validateLoop_mem _ _ _ _ hnode hloop2)
        · exact upsert_preserves fs2 ⟨markerName, false, now, false⟩ _
            (show markerName ≠ ("bin/code-server").toList by decide)
            (validateLoop_mem _ _ _ _ hcli hloop2)
  · intro st2 e heq
    cases tarballExists with
    | false =>
      unfold preseedServer at heq
      rw [if_pos rfl] at heq
      injection heq with h1 h2
      rw [← h1]
      exact hm
    | true =>
      unfold preseedServer at heq
      rw [if_neg (by simp), if_neg (by simp [hm])] at heq
      split at heq
      · rename_i fs2 e2 hloop
        injection heq with h1 h2
        rw [← h1]
        have hfst : (validateLoop (requiredFiles (extractTar tar)) (extractTar tar)).1 = fs2 := by
          rw [hloop]
        show hasFile fs2 markerName = false
        rw [← hfst, validateLoop_hasFile]
        exact hz
      · rename_i fs2 u hloop
        injection heq with h1 h2
        exact Except.noConfusion h2

def c8markedDir : List FileEntry := [⟨markerName, false, 5, false⟩]

/-- C8 counterexample: the tarball-existence check (line 22) runs before
the marker short-circuit (line 29), so invoking the preseeder with a
missing tarball on a commit directory that is already complete fails
while leaving the directory with its completion marker — a failure path
whose directory is neither absent nor marker-less, contradicting the
unconditional "every failure path ... never with a marker". -/
theorem c8_marker_invariant_counterexample :
    preseedServer 0 false [] (some c8markedDir) =
      (some c8markedDir, .error (("Missing server tarball").toList)) ∧
    hasMarker (some c8markedDir) = true := by
  exact ⟨by decide, by decide⟩

theorem c8_marker_invariant_witness :
    (hasMarker (none : Option (List FileEntry)) = false ∧
      hasFile (extractTar []) markerName = false ∧
      preseedServer 0 true [] none =
        (some [], .error (("Missing required server file: node").toList))) ∧
    hasMarker (some ([] : List FileEntry)) = false :=
  ⟨⟨by decide, by decide, by decide⟩,
    (c8_marker_invariant 0 true [] none (by decide) (by decide)).2.2 (some [])
      (("Missing required server file: node").toList) (by decide)⟩

/-- C9: idempotence of the preseeder.  A successful run leaves the
completion marker in the commit directory, and any re-invocation on that
state with the tarball present short-circuits on the marker: it returns
the existing directory entirely unchanged (same contents, same
modification times) and succeeds — for any clock value and any tarball
contents, so no extraction work depends on the second call's inputs. -/
theorem c9_preseed_idempotent (now now2 : Nat) (tar tar2 : List TarEntry)
    (st : Option (List FileEntry)) (c : List FileEntry)
    (h : preseedServer now true tar st = (some c, .ok ())) :
    preseedServer now2 true tar2 (some c) = (some c, .ok ()) := by
  have hmark : hasMarker (some c) = true := by
    unfold preseedServer at h
    rw [if_neg (by simp)] at h
    by_cases hm : hasMarker st = true
    · rw [if_pos hm] at h
      injection h with h1 h2
      rw [h1] at hm
      exact hm
    · rw [if_neg hm] at h
      split at h
      · rename_i fs2 e hloop
        injection h with h1 h2
        exact Except.noConfusion h2
      · rename_i fs2 u hloop
        injection h with h1 h2
        injection h1 with h1
        rw [← h1]
        unfold hasMarker
        exact hasFile_upsert_self fs2 ⟨markerName, false, now, false⟩
  unfold preseedServer
  rw [if_neg (by simp), if_pos hmark]

def c9tar : List TarEntry :=
  [⟨wrapperName ++ ("/node").toList, false, 1, false⟩,
   ⟨wrapperName ++ ("/bin/code-server").toList, false, 2, false⟩]

def c9dir : List FileEntry :=
  [⟨("node").toList, false, 1, true⟩,
   ⟨("bin/code-server").toList, false, 2, true⟩,
   ⟨markerName, false, 7, false⟩]

theorem c9_preseed_idempotent_witness :
    preseedServer 7 true c9tar none = (some c9dir, .ok ()) ∧
    preseedServer 99 true [] (some c9dir) = (some c9dir, .ok ()) :=
  ⟨by decide, c9_preseed_idempotent 7 99 c9tar [] none c9dir (by decide)⟩

/-! ## Case-insensitivity of the identity pipeline (claim C10) -/

theorem charToNat_ofNat (n : Nat) (h : n < 55296) : (Char.ofNat n).toNat = n := by
  simp [Char.ofNat, Char.toNat, dif_pos (Or.inl h : n.isValidChar), Char.ofNatAux,
    UInt32.toNat, BitVec.toNat_ofNatLt]

theorem char_eq_iff_toNat (a b : Char) : a = b ↔ a.toNat = b.toNat :=
  ⟨fun h => h ▸ rfl, fun h => Char.eq_of_val_eq (UInt32.ext h)⟩

theorem lowerChar_toNat (c : Char) :
    (lowerChar c).toNat = if 65 ≤ c.toNat ∧ c.toNat ≤ 90 then c.toNat + 32 else c.toNat := by
  unfold lowerChar
  split_ifs with h
  · exact charToNat_ofNat _ (by omega)
  · rfl

/-- `lowerChar` fixes every character that is not a letter, and nothing
maps onto such a character from elsewhere. -/
theorem lowerChar_fixed (k : Char)
    (hk : k.toNat < 65 ∨ (90 < k.toNat ∧ k.toNat < 97) ∨ 122 < k.toNat) (c : Char) :
    lowerChar c = k ↔ c = k := by
  rw [char_eq_iff_toNat, char_eq_iff_toNat, lowerChar_toNat]
  split_ifs with h <;> omega

theorem lowerChar_idem (c : Char) : lowerChar (lowerChar c) = lowerChar c := by
  rw [char_eq_iff_toNat, lowerChar_toNat, lowerChar_toNat]
  split_ifs <;> omega

theorem pyLower_idem (s : Str) : pyLower (pyLower s) = pyLower s := by
  unfold pyLower
  rw [List.map_map]
  exact List.map_congr_left (fun a _ => lowerChar_idem a)

theorem isPySpace_lower (c : Char) : isPySpace (lowerChar c) = isPySpace c := by
  unfold isPySpace
  simp only [decide_eq_decide]
  rw [lowerChar_toNat]
  split_ifs <;> omega

theorem isDigitC_lower (c : Char) : isDigitC (lowerChar c) = isDigitC c := by
  unfold isDigitC
  simp only [decide_eq_decide]
  rw [lowerChar_toNat]
  split_ifs <;> omega

theorem isWordC_lower (c : Char) : isWordC (lowerChar c) = isWordC c := by
  unfold isWordC isDigitC
  simp only [decide_eq_decide, decide_eq_true_eq]
  rw [lowerChar_toNat]
  split_ifs <;> omega

theorem versionTailC_lower (c : Char) : versionTailC (lowerChar c) = versionTailC c := by
  unfold versionTailC
  simp only [decide_eq_decide, decide_eq_true_eq]
  rw [isWordC_lower, lowerChar_fixed '.' (by decide) c, lowerChar_fixed '-' (by decide) c]

theorem lowerChar_v_iff (c : Char) :
    (lowerChar c = 'v' ∨ lowerChar c = 'V') ↔ (c = 'v' ∨ c = 'V') := by
  rw [char_eq_iff_toNat, char_eq_iff_toNat, char_eq_iff_toNat, char_eq_iff_toNat,
    lowerChar_toNat]
  have h1 : ('v').toNat = 118 := rfl
  have h2 : ('V').toNat = 86 := rfl
  rw [h1, h2]
  split_ifs <;> omega

theorem all_versionTailC_lower (l : Str) :
    (l.map lowerChar).all versionTailC = l.all versionTailC := by
  induction l with
  | nil => rfl
  | cons c cs ih => simp only [List.map_cons, List.all_cons, versionTailC_lower, ih]

theorem versionToken_lower (s : Str) : versionToken (pyLower s) = versionToken s := by
  unfold versionToken
  rw [pyLower_idem]
  cases s with
  | nil => rfl
  | cons c rest =>
    show (_ || _) = (_ || _)
    congr 1
    show (if lowerChar c = 'v' ∨ lowerChar c = 'V' then _ else _) =
      (if c = 'v' ∨ c = 'V' then _ else _)
    by_cases hv : c = 'v' ∨ c = 'V'
    · rw [if_pos ((lowerChar_v_iff c).mpr hv), if_pos hv]
      cases rest with
      | nil => rfl
      | cons d rest2 =>
        show (isDigitC (lowerChar d) && _) = (isDigitC d && _)
        rw [isDigitC_lower, all_versionTailC_lower]
    · rw [if_neg (fun hh => hv ((lowerChar_v_iff c).mp hh)), if_neg hv]
      show (isDigitC (lowerChar c) && _) = (isDigitC c && _)
      rw [isDigitC_lower, all_versionTailC_lower]

theorem takeWhile_map_comm {α β : Type _} (f : α → β) (p : β → Bool) (l : List α) :
    (l.map f).takeWhile p = (l.takeWhile (fun a => p (f a))).map f := by
  induction l with
  | nil => rfl
  | cons a l ih =>
    simp only [List.map_cons, List.takeWhile_cons]
    by_cases hp : p (f a) = true <;> simp [hp, ih]

theorem filter_map_comm {α β : Type _} (f : α → β) (p : β → Bool) (l : List α) :
    (l.map f).filter p = (l.filter (fun a => p (f a))).map f := by
  induction l with
  | nil => rfl
  | cons a l ih =>
    simp only [List.map_cons, List.filter_cons]
    by_cases hp : p (f a) = true <;> simp [hp, ih]

theorem pyStrip_lower (s : Str) : pyStrip (pyLower s) = pyLower (pyStrip s) := by
  have hfun : (isPySpace ∘ lowerChar) = isPySpace := funext isPySpace_lower
  unfold pyStrip pyLower
  rw [List.dropWhile_map, hfun, ← List.map_reverse, List.dropWhile_map, hfun,
    ← List.map_reverse]

theorem splitC_cons_eq (sep c : Char) (cs : Str) :
    splitC sep (c :: cs) =
      if c = sep then [] :: splitC sep cs
      else
        match splitC sep cs with
        | [] => [[c]]
        | p :: ps => (c :: p) :: ps := rfl

theorem splitC_map (sep : Char) (f : Char → Char) (hf : ∀ c, f c = sep ↔ c = sep)
    (l : Str) : splitC sep (l.map f) = (splitC sep l).map (List.map f) := by
  induction l with
  | nil => rfl
  | cons c cs ih =>
    by_cases hc : c = sep
    · have h1 : splitC sep (List.map f (c :: cs)) = [] :: splitC sep (List.map f cs) := by
        simp only [List.map_cons]
        rw [splitC_cons_eq, if_pos ((hf c).mpr hc)]
      have h2 : splitC sep (c :: cs) = [] :: splitC sep cs := by
        rw [splitC_cons_eq, if_pos hc]
      rw [h1, h2, ih, List.map_cons]
      rfl
    · rcases hcs : splitC sep cs with _ | ⟨p, ps⟩
      · exact absurd hcs (splitC_ne_nil sep cs)
      · have h2 : splitC sep (c :: cs) = (c :: p) :: ps := by
          unfold splitC
          rw [if_neg hc, hcs]
        have h1 : splitC sep (List.map f (c :: cs)) =
            (f c :: List.map f p) :: List.map (List.map f) ps := by
          simp only [List.map_cons]
          unfold splitC
          rw [if_neg (fun hh => hc ((hf c).mp hh)), ih, hcs]
          rfl
        rw [h1, h2]
        rfl

theorem joinC_map (sep : Char) (f : Char → Char) (hsep : f sep = sep) (ps : List Str) :
    joinC sep (ps.map (List.map f)) = (joinC sep ps).map f := by
  induction ps with
  | nil => rfl
  | cons p qs ih =>
    cases qs with
    | nil => rfl
    | cons q rs =>
      show List.map f p ++ sep :: joinC sep (List.map (List.map f) (q :: rs)) =
        List.map f (p ++ sep :: joinC sep (q :: rs))
      rw [List.map_append]
      congr 1
      show sep :: joinC sep (List.map f q :: List.map (List.map f) rs) =
        f sep :: List.map f (joinC sep (q :: rs))
      rw [hsep]
      congr 1

theorem map_lower_eq_singleton (k : Char)
    (hk : k.toNat < 65 ∨ (90 < k.toNat ∧ k.toNat < 97) ∨ 122 < k.toNat) (p : Str) :
    (p.map lowerChar = [k]) ↔ p = [k] := by
  cases p with
  | nil => simp
  | cons c cs =>
    cases cs with
    | nil => simp [lowerChar_fixed k hk c]
    | cons d ds => simp

theorem mem_pyLower_fixed (k : Char)
    (hk : k.toNat < 65 ∨ (90 < k.toNat ∧ k.toNat < 97) ∨ 122 < k.toNat) (s : Str) :
    k ∈ pyLower s ↔ k ∈ s := by
  unfold pyLower
  rw [List.mem_map]
  constructor
  · rintro ⟨a, ha, heq⟩
    rw [(lowerChar_fixed k hk a).mp heq] at ha
    exact ha
  · intro hmem
    exact ⟨k, hmem, (lowerChar_fixed k hk k).mpr rfl⟩

theorem head_pyLower_fixed (k : Char)
    (hk : k.toNat < 65 ∨ (90 < k.toNat ∧ k.toNat < 97) ∨ 122 < k.toNat) (s : Str) :
    ((pyLower s).head? = some k) ↔ (s.head? = some k) := by
  cases s with
  | nil => simp [pyLower]
  | cons c cs => simp [pyLower, lowerChar_fixed k hk c]

theorem getD_nil_map (f : Str → Str) (hf : f [] = []) (o : Option Str) :
    (o.map f).getD [] = f (o.getD []) := by
  cases o <;> simp [hf]

theorem pathLeaf_lower (s : Str) : pathLeaf (pyLower s) = pyLower (pathLeaf s) := by
  unfold pathLeaf
  rw [show pyLower s = s.map lowerChar from rfl,
    splitC_map '/' lowerChar (lowerChar_fixed '/' (by decide)), filter_map_comm]
  have hpred : ∀ p : Str,
      (decide (List.map lowerChar p ≠ [] ∧ List.map lowerChar p ≠ ['.'])) =
      (decide (p ≠ [] ∧ p ≠ ['.'])) := by
    intro p
    rw [decide_eq_decide]
    constructor
    · rintro ⟨h1, h2⟩
      exact ⟨fun hh => h1 (by rw [hh]; rfl),
        fun hh => h2 (by rw [hh]; rfl)⟩
    · rintro ⟨h1, h2⟩
      refine ⟨fun hh => h1 (List.map_eq_nil_iff.mp hh), fun hh =>
        h2 ((map_lower_eq_singleton '.' (by decide) p).mp hh)⟩
  have hpred2 : (fun p : Str => decide (List.map lowerChar p ≠ [] ∧ List.map lowerChar p ≠ ['.'])) =
      (fun p : Str => decide (p ≠ [] ∧ p ≠ ['.'])) := funext hpred
  rw [hpred2, List.getLast?_map, getD_nil_map (List.map lowerChar) rfl]
  rfl

theorem takeWhile_pred_congr {α : Type _} (p q : α → Bool) (h : ∀ a, p a = q a)
    (l : List α) : l.takeWhile p = l.takeWhile q := by
  induction l with
  | nil => rfl
  | cons a l ih => rw [List.takeWhile_cons, List.takeWhile_cons, h a, ih]

theorem pathSuffix_lower (s : Str) : pathSuffix (pyLower s) = pyLower (pathSuffix s) := by
  have hpost : ((pyLower s).reverse.takeWhile (fun c => decide (c ≠ '.'))).reverse =
      pyLower ((s.reverse.takeWhile (fun c => decide (c ≠ '.'))).reverse) := by
    show ((List.map lowerChar s).reverse.takeWhile (fun c => decide (c ≠ '.'))).reverse =
      List.map lowerChar ((s.reverse.takeWhile (fun c => decide (c ≠ '.'))).reverse)
    rw [← List.map_reverse, takeWhile_map_comm,
      takeWhile_pred_congr _ (fun c => decide (c ≠ '.'))
        (fun a => by
          show decide (lowerChar a ≠ '.') = decide (a ≠ '.')
          rw [decide_eq_decide]
          exact not_congr (lowerChar_fixed '.' (by decide) a))
        s.reverse,
      ← List.map_reverse]
  unfold pathSuffix
  by_cases hdot : '.' ∈ s
  · rw [if_pos ((mem_pyLower_fixed '.' (by decide) s).mpr hdot), if_pos hdot, hpost]
    have hlen : (pyLower s).length = s.length := List.length_map _ _
    have hlen2 : (pyLower ((s.reverse.takeWhile (fun c => decide (c ≠ '.'))).reverse)).length =
        ((s.reverse.takeWhile (fun c => decide (c ≠ '.'))).reverse).length :=
      List.length_map _ _
    rw [hlen, hlen2]
    have hnil : (pyLower ((s.reverse.takeWhile (fun c => decide (c ≠ '.'))).reverse) ≠ []) ↔
        ((s.reverse.takeWhile (fun c => decide (c ≠ '.'))).reverse ≠ []) :=
      not_congr ⟨fun h => List.map_eq_nil_iff.mp h, fun h => by rw [h]; rfl⟩
    by_cases hcond :
        0 < s.length - ((s.reverse.takeWhile (fun c => decide (c ≠ '.'))).reverse).length - 1 ∧
        (s.reverse.takeWhile (fun c => decide (c ≠ '.'))).reverse ≠ []
    · rw [if_pos ⟨hcond.1, hnil.mpr hcond.2⟩, if_pos hcond]
      show ('.') :: pyLower _ = List.map lowerChar (('.') :: _)
      rw [List.map_cons, show lowerChar '.' = '.' by decide]
      rfl
    · rw [if_neg (fun hh => hcond ⟨hh.1, hnil.mp hh.2⟩), if_neg hcond]
      rfl
  · rw [if_neg (fun hh => hdot ((mem_pyLower_fixed '.' (by decide) s).mp hh)), if_neg hdot]
    rfl

theorem dropLast_map_comm {α β : Type _} (f : α → β) (l : List α) :
    (l.map f).dropLast = l.dropLast.map f := by
  induction l with
  | nil => rfl
  | cons a l ih =>
    cases l with
    | nil => rfl
    | cons b m => exact congrArg (List.cons (f a)) ih

theorem splitBase_lower (base : Str) : splitBase (pyLower base) = splitBase base := by
  unfold splitBase
  have hparts : splitC '-' (pyLower base) = (splitC '-' base).map pyLower :=
    splitC_map '-' lowerChar (lowerChar_fixed '-' (by decide)) base
  rw [hparts, List.length_map]
  by_cases hlen : 2 ≤ (splitC '-' base).length
  · rw [if_pos hlen, if_pos hlen]
    have hlast : ((((splitC '-' base).map pyLower).getLast?).getD []) =
        pyLower (((splitC '-' base).getLast?).getD []) := by
      rw [List.getLast?_map]
      exact getD_nil_map pyLower rfl _
    rw [hlast, versionToken_lower]
    by_cases htok : versionToken (((splitC '-' base).getLast?).getD []) = true
    · rw [if_pos htok, if_pos htok]
      have hdrop : ((splitC '-' base).map pyLower).dropLast =
          ((splitC '-' base).dropLast).map pyLower := dropLast_map_comm pyLower _
      have hjoin : joinC '-' (((splitC '-' base).dropLast).map pyLower) =
          pyLower (joinC '-' ((splitC '-' base).dropLast)) :=
        joinC_map '-' lowerChar (by decide) _
      rw [hdrop, hjoin, pyLower_idem, pyLower_idem]
    · rw [if_neg htok, if_neg htok, pyLower_idem]
  · rw [if_neg hlen, if_neg hlen, pyLower_idem]

theorem splitName_lower (s : Str) : splitName (pyLower s) = splitName s := by
  unfold splitName
  by_cases hs : s = []
  · subst hs
    rfl
  · rw [if_neg (show ¬(pyLower s = []) from fun h => hs (List.map_eq_nil_iff.mp h)),
      if_neg hs, pathLeaf_lower, pyLower_idem]
    by_cases hsuf : ((".vsix").toList).isSuffixOf (pyLower (pathLeaf s)) = true
    · rw [if_pos hsuf, if_pos hsuf]
      have htake : (pyLower (pathLeaf s)).take ((pyLower (pathLeaf s)).length - 5) =
          pyLower ((pathLeaf s).take ((pathLeaf s).length - 5)) := by
        show (List.map lowerChar (pathLeaf s)).take
            ((List.map lowerChar (pathLeaf s)).length - 5) =
          List.map lowerChar ((pathLeaf s).take ((pathLeaf s).length - 5))
        rw [List.length_map, ← List.map_take]
      rw [htake, splitBase_lower]
    · rw [if_neg hsuf, if_neg hsuf, splitBase_lower]

/-- Two strings that differ only in letter case (same lowercase image). -/
def caseEq (s t : Str) : Prop := pyLower s = pyLower t

instance (s t : Str) : Decidable (caseEq s t) := by
  unfold caseEq
  infer_instance

/-- Case-equivalence on optional strings. -/
def optCaseEq (a b : Option Str) : Prop := a.map pyLower = b.map pyLower

instance (a b : Option Str) : Decidable (optCaseEq a b) := by
  unfold optCaseEq
  infer_instance

theorem caseEq_splitName {s t : Str} (h : caseEq s t) : splitName s = splitName t := by
  unfold caseEq at h
  rw [← splitName_lower s, ← splitName_lower t, h]

theorem caseEq_stripLower {s t : Str} (h : caseEq s t) :
    pyLower (pyStrip s) = pyLower (pyStrip t) := by
  unfold caseEq at h
  rw [← pyStrip_lower, ← pyStrip_lower, h]

theorem optCaseEq_getD {a b : Option Str} (h : optCaseEq a b) :
    caseEq (a.getD []) (b.getD []) := by
  unfold optCaseEq at h
  rcases a with _ | s <;> rcases b with _ | t
  · rfl
  · exact absurd h (by simp)
  · exact absurd h (by simp)
  · simpa [caseEq] using h

theorem optCaseEq_pyOr {a1 b1 a2 b2 : Option Str} (h1 : optCaseEq a1 a2)
    (h2 : optCaseEq b1 b2) : optCaseEq (pyOr a1 b1) (pyOr a2 b2) := by
  unfold pyOr
  rcases a1 with _ | s <;> rcases a2 with _ | t
  · exact h2
  · exact absurd h1 (by simp [optCaseEq])
  · exact absurd h1 (by simp [optCaseEq])
  · have hst : pyLower s = pyLower t := by simpa [optCaseEq] using h1
    have hempty : (s = []) ↔ (t = []) := by
      constructor
      · intro h
        rw [h] at hst
        exact List.map_eq_nil_iff.mp hst.symm
      · intro h
        rw [h] at hst
        exact List.map_eq_nil_iff.mp hst
    show optCaseEq (if s = [] then b1 else some s) (if t = [] then b2 else some t)
    by_cases hs : s = []
    · rw [if_pos hs, if_pos (hempty.mp hs)]
      exact h2
    · rw [if_neg hs, if_neg (fun hh => hs (hempty.mpr hh))]
      simpa [optCaseEq] using hst

theorem normalizeVersion_caseEq {a b : Option Str} (h : optCaseEq a b) :
    normalizeVersion a = normalizeVersion b := by
  unfold normalizeVersion
  rcases a with _ | s <;> rcases b with _ | t
  · rfl
  · exact absurd h (by simp [optCaseEq])
  · exact absurd h (by simp [optCaseEq])
  · have hst : pyLower (pyStrip s) = pyLower (pyStrip t) :=
      caseEq_stripLower (by simpa [optCaseEq, caseEq] using h)
    show (if pyLower (pyStrip s) = [] then none else some (pyLower (pyStrip s))) =
      (if pyLower (pyStrip t) = [] then none else some (pyLower (pyStrip t)))
    rw [hst]

/-- Case-equivalence of include/exclude rules. -/
def ruleCaseEq (a b : Rule) : Prop := optCaseEq a.name b.name ∧ optCaseEq a.version b.version

instance (a b : Rule) : Decidable (ruleCaseEq a b) := by
  unfold ruleCaseEq
  infer_instance

/-- Case-equivalence of raw manifest file records. -/
def rawFileCaseEq (a b : RawFile) : Prop :=
  a.present = b.present ∧ optCaseEq a.name b.name ∧ optCaseEq a.path b.path

instance (a b : RawFile) : Decidable (rawFileCaseEq a b) := by
  unfold rawFileCaseEq
  infer_instance

/-- Case-equivalence of scanned directory items. -/
def dirItemCaseEq (a b : DirItem) : Prop := caseEq a.name b.name ∧ a.isDir = b.isDir

instance (a b : DirItem) : Decidable (dirItemCaseEq a b) := by
  unfold dirItemCaseEq
  infer_instance

/-- Installed items equal up to the letter case of their on-disk path:
identity and version are equal outright. -/
def extCaseEq (a b : Ext) : Prop := a.id = b.id ∧ a.version = b.version ∧ caseEq a.path b.path

instance (a b : Ext) : Decidable (extCaseEq a b) := by
  unfold extCaseEq
  infer_instance

theorem normalizeRules_congr {r1 r2 : List Rule} (h : List.Forall₂ ruleCaseEq r1 r2) :
    normalizeRules r1 = normalizeRules r2 := by
  induction h with
  | nil => rfl
  | @cons a b l1 l2 hab htail ih =>
    unfold normalizeRules at ih ⊢
    rw [List.filterMap_cons, List.filterMap_cons]
    obtain ⟨hname, hver⟩ := hab
    have hn : pyLower (pyStrip (a.name.getD [])) = pyLower (pyStrip (b.name.getD [])) :=
      caseEq_stripLower (optCaseEq_getD hname)
    rw [hn, normalizeVersion_caseEq hver]
    by_cases hc : pyLower (pyStrip (b.name.getD [])) = [] <;> simp [hc, ih]

theorem loadManifest_congr {f1 f2 : List RawFile} (h : List.Forall₂ rawFileCaseEq f1 f2) :
    loadManifest f1 = loadManifest f2 := by
  induction h with
  | nil => rfl
  | @cons a b l1 l2 hab htail ih =>
    obtain ⟨hp, hname, hpath⟩ := hab
    unfold loadManifest at ih ⊢
    rw [List.filterMap_cons, List.filterMap_cons]
    have hsplit : splitName ((pyOr a.name a.path).getD []) =
        splitName ((pyOr b.name b.path).getD []) :=
      caseEq_splitName (optCaseEq_getD (optCaseEq_pyOr hname hpath))
    rw [hp, hsplit]
    by_cases hpres : b.present = false
    · simp [hpres, ih]
    · rcases hsn : splitName ((pyOr b.name b.path).getD []) with ⟨oi, v⟩
      rcases oi with _ | ident
      · simp [hpres, hsn, ih]
      · by_cases hid : ident = [] <;> simp [hpres, hsn, hid, ih]

theorem scanExtensions_congr {i1 i2 : List DirItem} (h : List.Forall₂ dirItemCaseEq i1 i2) :
    List.Forall₂ extCaseEq (scanExtensions i1) (scanExtensions i2) := by
  induction h with
  | nil => exact List.Forall₂.nil
  | @cons a b l1 l2 hab htail ih =>
    obtain ⟨hname, hdir⟩ := hab
    have hnl : pyLower a.name = pyLower b.name := hname
    unfold scanExtensions at ih ⊢
    rw [List.filterMap_cons, List.filterMap_cons]
    have hdot : (a.name.head? = some '.') ↔ (b.name.head? = some '.') := by
      rw [← head_pyLower_fixed '.' (by decide) a.name, hnl,
        head_pyLower_fixed '.' (by decide) b.name]
    have hsuffix : pyLower (pathSuffix a.name) = pyLower (pathSuffix b.name) := by
      rw [← pathSuffix_lower, ← pathSuffix_lower, hnl]
    have hsplit : splitName a.name = splitName b.name := caseEq_splitName hname
    by_cases hd : b.name.head? = some '.'
    · rw [if_pos (hdot.mpr hd), if_pos hd]
      exact ih
    · rw [if_neg (fun hh => hd (hdot.mp hh)), if_neg hd]
      have hcond : (a.isDir = true ∨ pyLower (pathSuffix a.name) = (".vsix").toList) ↔
          (b.isDir = true ∨ pyLower (pathSuffix b.name) = (".vsix").toList) := by
        rw [hdir, hsuffix]
      by_cases hc2 : ¬(b.isDir = true ∨ pyLower (pathSuffix b.name) = (".vsix").toList)
      · rw [if_pos (fun hh => hc2 (hcond.mp hh)), if_pos hc2]
        exact ih
      · rw [if_neg (show ¬¬(a.isDir = true ∨ pyLower (pathSuffix a.name) = (".vsix").toList)
            from fun hna => hc2 (fun hb => hna (hcond.mpr hb))), if_neg hc2]
        rw [hsplit]
        rcases hsn : splitName b.name with ⟨oi, version⟩
        rcases oi with _ | ident
        · simp only [hsn]
          exact ih
        · by_cases hid : ident = []
          · simp only [hsn, if_pos hid]
            exact ih
          · simp only [hsn, if_neg hid]
            exact List.Forall₂.cons ⟨rfl, rfl, hname⟩ ih

theorem forall2_filter {α : Type _} (R : α → α → Prop) (p : α → Bool)
    (hp : ∀ a b, R a b → p a = p b) :
    ∀ {l1 l2 : List α}, List.Forall₂ R l1 l2 →
      List.Forall₂ R (l1.filter p) (l2.filter p) := by
  intro l1 l2 h
  induction h with
  | nil => exact List.Forall₂.nil
  | @cons a b t1 t2 hab htail ih =>
    rw [List.filter_cons, List.filter_cons, ← hp a b hab]
    by_cases hpa : p a = true
    · simp only [hpa, if_true]
      exact List.Forall₂.cons hab ih
    · simp only [hpa]
      simp only [Bool.false_eq_true, if_false]
      exact ih

theorem changedKeep_congr (d : List (Str × Option Str)) {a b : Ext} (h : extCaseEq a b) :
    changedKeep d a = changedKeep d b := by
  obtain ⟨hid, hver, _⟩ := h
  unfold changedKeep
  rw [hid, hver]

theorem planVictims_congr (mode : Str) {in1 in2 : List Ext} (d : List (Str × Option Str))
    (h : List.Forall₂ extCaseEq in1 in2) :
    List.Forall₂ extCaseEq (planVictims mode in1 d) (planVictims mode in2 d) := by
  unfold planVictims
  by_cases hm : mode = ("CLEAN").toList
  · rw [if_pos hm, if_pos hm]
    exact h
  · rw [if_neg hm, if_neg hm]
    unfold changed
    exact forall2_filter extCaseEq (changedKeep d)
      (fun a b hab => changedKeep_congr d hab) h

theorem selectManifestEntries_congr (e : List (Str × Option Str)) {i1 i2 e1 e2 : List Rule}
    (hi : normalizeRules i1 = normalizeRules i2) (he : normalizeRules e1 = normalizeRules e2) :
    selectManifestEntries e i1 e1 = selectManifestEntries e i2 e2 := by
  unfold selectManifestEntries
  rw [hi, he]

theorem splitBase_lowered (base : Str) :
    (∀ x, (splitBase base).1 = some x → pyLower x = x) ∧
    (∀ x, (splitBase base).2 = some x → pyLower x = x) := by
  unfold splitBase
  by_cases hlen : 2 ≤ (splitC '-' base).length
  · rw [if_pos hlen]
    by_cases htok : versionToken (((splitC '-' base).getLast?).getD []) = true
    · rw [if_pos htok]
      constructor
      · intro x hx
        by_cases hid : pyLower (joinC '-' (splitC '-' base).dropLast) = []
        · rw [if_pos hid] at hx
          exact absurd hx (by simp)
        · rw [if_neg hid] at hx
          injection hx with hx
          rw [← hx, pyLower_idem]
      · intro x hx
        injection hx with hx
        rw [← hx, pyLower_idem]
    · rw [if_neg htok]
      refine ⟨fun x hx => ?_, fun x hx => absurd hx (by simp)⟩
      injection hx with hx
      rw [← hx, pyLower_idem]
  · rw [if_neg hlen]
    refine ⟨fun x hx => ?_, fun x hx => absurd hx (by simp)⟩
    injection hx with hx
    rw [← hx, pyLower_idem]

theorem splitName_lowered (s : Str) :
    (∀ x, (splitName s).1 = some x → pyLower x = x) ∧
    (∀ x, (splitName s).2 = some x → pyLower x = x) := by
  unfold splitName
  by_cases hs : s = []
  · rw [if_pos hs]
    exact ⟨fun x hx => absurd hx (by simp), fun x hx => absurd hx (by simp)⟩
  · rw [if_neg hs]
    exact splitBase_lowered _

theorem normalizeVersion_lowered (v : Option Str) :
    ∀ x, normalizeVersion v = some x → pyLower x = x := by
  unfold normalizeVersion
  rcases v with _ | s
  · exact fun x hx => absurd hx (by simp)
  · intro x hx
    have hx2 : (if pyLower (pyStrip s) = [] then none
        else some (pyLower (pyStrip s))) = some x := hx
    by_cases hc : pyLower (pyStrip s) = []
    · rw [if_pos hc] at hx2
      exact absurd hx2 (by simp)
    · rw [if_neg hc] at hx2
      injection hx2 with hx2
      rw [← hx2, pyLower_idem]

theorem normalizeRules_lowered (rs : List Rule) :
    ∀ p ∈ normalizeRules rs, pyLower p.1 = p.1 ∧ ∀ x, p.2 = some x → pyLower x = x := by
  intro p hp
  unfold normalizeRules at hp
  rcases List.mem_filterMap.mp hp with ⟨r, _, hfn⟩
  by_cases hc : pyLower (pyStrip (r.name.getD [])) = []
  · rw [if_pos hc] at hfn
    exact absurd hfn (by simp)
  · rw [if_neg hc] at hfn
    injection hfn with hfn
    rw [← hfn]
    exact ⟨pyLower_idem _, normalizeVersion_lowered r.version⟩

/-- C10: every identity and version the pipeline produces is lowercased,
and the whole displacement-planning pipeline is case-insensitive.
(1) the name split gives equal results for names differing only in case
— two such names denote the same identity/version; (2) its outputs are
already lowercase; (3)/(4) rule normalization is case-insensitive and
produces lowercase names and versions; (5) the manifest load gives equal
id/version lists for case-equivalent file records; (6) for any mode, the
planner's victim list is the same (identical identities and versions,
paths equal up to case) when installed-item names, manifest names, and
include/exclude rules change only in letter case. -/
theorem c10_case_insensitive_identity :
    (∀ s t : Str, caseEq s t → splitName s = splitName t) ∧
    (∀ s : Str, (∀ x, (splitName s).1 = some x → pyLower x = x) ∧
      (∀ x, (splitName s).2 = some x → pyLower x = x)) ∧
    (∀ r1 r2 : List Rule, List.Forall₂ ruleCaseEq r1 r2 →
      normalizeRules r1 = normalizeRules r2) ∧
    (∀ rs : List Rule, ∀ p ∈ normalizeRules rs,
      pyLower p.1 = p.1 ∧ ∀ x, p.2 = some x → pyLower x = x) ∧
    (∀ f1 f2 : List RawFile, List.Forall₂ rawFileCaseEq f1 f2 →
      loadManifest f1 = loadManifest f2) ∧
    (∀ (mode : Str) (items1 items2 : List DirItem) (f1 f2 : List RawFile)
        (inc1 inc2 exc1 exc2 : List Rule),
      List.Forall₂ dirItemCaseEq items1 items2 →
      List.Forall₂ rawFileCaseEq f1 f2 →
      List.Forall₂ ruleCaseEq inc1 inc2 →
      List.Forall₂ ruleCaseEq exc1 exc2 →
      List.Forall₂ extCaseEq
        (planVictims mode (scanExtensions items1)
          (selectManifestEntries (loadManifest f1) inc1 exc1))
        (planVictims mode (scanExtensions items2)
          (selectManifestEntries (loadManifest f2) inc2 exc2))) := by
  refine ⟨?_, ?_, ?_, ?_, ?_, ?_⟩
  · exact fun s t h => caseEq_splitName h
  · exact splitName_lowered
  · exact fun r1 r2 h => normalizeRules_congr h
  · exact normalizeRules_lowered
  · exact fun f1 f2 h => loadManifest_congr h
  · intro mode items1 items2 f1 f2 inc1 inc2 exc1 exc2 hitems hf hinc hexc
    rw [loadManifest_congr hf,
      selectManifestEntries_congr (loadManifest f2) (normalizeRules_congr hinc)
        (normalizeRules_congr hexc)]
    exact planVictims_congr mode _ (scanExtensions_congr hitems)

def c10item1 : DirItem := ⟨("MS-Python.Python-2024.10.1").toList, true⟩

def c10item2 : DirItem := ⟨("ms-python.python-2024.10.1").toList, true⟩

theorem c10_case_insensitive_identity_witness :
    (caseEq c10item1.name c10item2.name ∧ dirItemCaseEq c10item1 c10item2) ∧
    splitName c10item1.name = splitName c10item2.name :=
  ⟨⟨by decide, by decide⟩,
    c10_case_insensitive_identity.1 c10item1.name c10item2.name (by decide)⟩

end Deploy
